import Mathlib

/-!
Verification development for the FJSP hybrid GA-VNS scheduler
(`flexible_scheduling/hybrid_ga_vns_scheduler.py` and
`flexible_scheduling/fjsp_scheduler.py`).

The decoder, the genetic operators, the VNS loop, the generational loop and
the run entry point are embedded shallowly.  Randomness (calls to
`random.random`, `random.sample`, `random.choice`, ...) is passed in
explicitly as oracle arguments; machine identifiers are modelled by their
index in `list(self.machines.keys())`; a unit key
(`task.order_id + str(unit)`) is modelled as a single natural number.
-/

namespace FJSP

/-- A schedulable item: one (unit, operation-index) pair.  `unit` models the
decoder's `unit_key` (the concatenation of `order_id` and the unit number
extracted from `task_id`), which identifies one physical unit of one order;
`operation_idx` is the position of that operation in the unit's job
template. -/
structure Task where
  unit : Nat
  operation_idx : Nat
deriving DecidableEq, Repr

/-- A `ScheduledTask` record (`fjsp_scheduler.ScheduledTask`): task, assigned
machine (by index), start time, end time and processing time. -/
structure ScheduledTask where
  task : Task
  machine_id : Nat
  start_time : Nat
  end_time : Nat
  processing_time : Nat
deriving DecidableEq, Repr

/-- One entry of `self.all_operations` as built by `prepare_problem_data`:
the task plus its `processing_times` table.  `processing_times m` is the
duration of this operation on machine index `m`, or `none` when that machine
has no declared duration for it (Python: key absent from the dict). -/
structure OpInfo where
  task : Task
  processing_times : Nat → Option Nat

/-- OpInfo used for an out-of-range `all_operations[op_id]` access; every
theorem below constrains the chromosome so that this is never reached. -/
def defaultOpInfo : OpInfo := ⟨⟨0, 0⟩, fun _ => none⟩

/-- A GA `Individual`: machine assignment and operation sequence vectors,
plus the derived `fitness`, `actual_makespan` and `schedule` fields.
Sequence entries are integers because the crossover operators use `-1` as a
placeholder.  `fitness`/`actual_makespan` are `WithTop Nat`: `⊤` models the
dataclass default `float('inf')` of a not-yet-evaluated individual. -/
structure Individual where
  machine_assignment : List Nat
  operation_sequence : List Int
  fitness : WithTop Nat
  actual_makespan : WithTop Nat
  schedule : List ScheduledTask
deriving DecidableEq

/-- Placeholder individual used for indexing defaults. -/
def dummyInd : Individual := ⟨[], [], ⊤, ⊤, []⟩

/-- Placeholder scheduled task used for indexing defaults. -/
def dummySched : ScheduledTask := ⟨⟨0, 0⟩, 0, 0, 0, 0⟩

/-- The decoder's mutable state: per-machine `available_time` cursors
(`MachineState.available_time`), the per-unit completion markers
(`job_unit_completion`, a `defaultdict` returning 0 for missing entries) and
the list of scheduled tasks produced so far. -/
structure DecodeState where
  avail : Nat → Nat
  comp : Nat → Nat → Nat
  sched : List ScheduledTask

/-- The state at the top of `evaluate_individual`: all machine cursors 0,
all completion markers 0 (defaultdict default), no scheduled tasks. -/
def initState : DecodeState := ⟨fun _ => 0, fun _ _ => 0, []⟩

/-- One iteration of the scheduling loop in
`HybridGAVNSScheduler.evaluate_individual` combined with
`MachineState.schedule_task`:
look up the operation and its assigned machine, take the processing time
with default 10 when the machine has no entry
(`op_info['processing_times'].get(machine_id, 10)`), start from the
machine's cursor, raise the start to the recorded completion of the unit's
previous operation when `operation_idx > 0`, let `schedule_task` raise it
once more to the cursor (`max(start_time, self.available_time)`), then
advance the cursor to `end_time`, record the `ScheduledTask` and update the
unit's completion marker. -/
def decodeStep (ops : List OpInfo) (ma : List Nat) (st : DecodeState) (opId : Int) :
    DecodeState :=
  let info := ops.getD opId.toNat defaultOpInfo
  let m := ma.getD opId.toNat 0
  let processing_time := (info.processing_times m).getD 10
  let start0 := st.avail m
  let start1 :=
    if 0 < info.task.operation_idx then
      max start0 (st.comp info.task.unit (info.task.operation_idx - 1))
    else start0
  let start_time := max start1 (st.avail m)
  let end_time := start_time + processing_time
  { avail := fun k => if k = m then end_time else st.avail k
    comp := fun u i =>
      if u = info.task.unit ∧ i = info.task.operation_idx then end_time else st.comp u i
    sched := st.sched ++ [⟨info.task, m, start_time, end_time, processing_time⟩] }

/-- The full decoding pass: walk `operation_sequence` in order from the
reset state. -/
def decodeSeq (ops : List OpInfo) (ma : List Nat) (seq : List Int) : DecodeState :=
  seq.foldl (decodeStep ops ma) initState

/-- `max(task.end_time for task in scheduled_tasks) if scheduled_tasks else 0`. -/
def makespanOf (sched : List ScheduledTask) : Nat :=
  sched.foldr (fun t acc => max t.end_time acc) 0

/-- Translation of `HybridGAVNSScheduler.evaluate_individual`.  The `weights`
argument models the scheduler's `sequence_priority_weights` configuration
(makespan / load_balance / flow_time); the function body never consults it,
exactly as in the source, where the declared weights are dead configuration.
The function overwrites `fitness`, `actual_makespan` and `schedule` and
leaves the chromosome untouched. -/
def evaluate_individual (weights : ℚ × ℚ × ℚ) (ops : List OpInfo) (ind : Individual) :
    Individual :=
  let st := decodeSeq ops ind.machine_assignment ind.operation_sequence
  { machine_assignment := ind.machine_assignment
    operation_sequence := ind.operation_sequence
    fitness := (makespanOf st.sched : Nat)
    actual_makespan := (makespanOf st.sched : Nat)
    schedule := st.sched }

/-- The `sequence_priority_weights` configured in `__init__`
(makespan 0.95, load_balance 0.03, flow_time 0.02). -/
def configuredWeights : ℚ × ℚ × ℚ := (95 / 100, 3 / 100, 2 / 100)

/-- Restatement of the decoder step following the specification's words
(spec §4.2): `start = max(machine.cursor, predecessor_completion)` where
`predecessor_completion` is the recorded completion of the same unit's
immediately preceding operation, 0 if this is the unit's first operation or
the predecessor has not been decoded yet; `end = start + duration`; the
cursor advances to `end`.  Used only to compare with `decodeStep`. -/
def decodeStepSpec (ops : List OpInfo) (ma : List Nat) (st : DecodeState) (opId : Int) :
    DecodeState :=
  let info := ops.getD opId.toNat defaultOpInfo
  let m := ma.getD opId.toNat 0
  let duration := (info.processing_times m).getD 10
  let predecessor_completion :=
    if info.task.operation_idx = 0 then 0
    else st.comp info.task.unit (info.task.operation_idx - 1)
  let start_time := max (st.avail m) predecessor_completion
  let end_time := start_time + duration
  { avail := fun k => if k = m then end_time else st.avail k
    comp := fun u i =>
      if u = info.task.unit ∧ i = info.task.operation_idx then end_time else st.comp u i
    sched := st.sched ++ [⟨info.task, m, start_time, end_time, duration⟩] }

/-- Restatement of the whole decode pass following the specification's words
(walk the sequence in order; afterwards `fitness = makespan = max end`, 0
when nothing was scheduled; the priority weights play no role). -/
def evaluateSpec (ops : List OpInfo) (ind : Individual) : Individual :=
  let st := ind.operation_sequence.foldl (decodeStepSpec ops ind.machine_assignment) initState
  { machine_assignment := ind.machine_assignment
    operation_sequence := ind.operation_sequence
    fitness := (makespanOf st.sched : Nat)
    actual_makespan := (makespanOf st.sched : Nat)
    schedule := st.sched }

/-- The list `[0, 1, ..., n-1]` as integers: the reference value of a valid
`operation_sequence` (a permutation of `range(N)`). -/
def rangeInt (n : Nat) : List Int := (List.range n).map Int.ofNat

/-! ### Crossover operators

Randomness is made explicit: the crossover cut points, the per-position coin
flips of the machine-assignment crossovers and the sampled position set of
the position-based crossover are arguments. -/

/-- The hole-filling walk shared by `fill_remaining` (inside
`order_crossover`) and `fill_remaining_pbx` (inside
`position_based_crossover`): traverse the child template and replace each
`-1` placeholder with the next element of `remaining`.  (Python would raise
`IndexError` were `remaining` exhausted with a hole left; in that unreached
case the placeholder is kept.) -/
def fillHoles : List Int → List Int → List Int
  | [], _ => []
  | c :: cs, remaining =>
    if c = -1 then
      match remaining with
      | [] => c :: fillHoles cs []
      | r :: rs => r :: fillHoles cs rs
    else c :: fillHoles cs remaining

/-- `fill_remaining(child_seq, other_parent_seq)` from `order_crossover`:
collect the elements of the other parent that are not already in the child
template, then fill the `-1` holes with them in order. -/
def fill_remaining (child other : List Int) : List Int :=
  fillHoles child (other.filter (fun x => decide (x ∉ child)))

/-- The child template after `child_seq = [-1]*size` followed by
`child_seq[s:e] = parent_seq[s:e]`. -/
def segmentTemplate (parent : List Int) (s e : Nat) : List Int :=
  List.replicate s (-1) ++ (parent.drop s).take (e - s) ++
    List.replicate (parent.length - e) (-1)

/-- Per-position machine-assignment crossover used (with independent coin
streams) by `order_crossover` and `uniform_crossover`: child 1 takes parent
1's machine where the coin is true, parent 2's otherwise. -/
def coinMachines (ma1 ma2 : List Nat) (coins : Nat → Bool) : List Nat :=
  (List.range ma1.length).map
    (fun i => if coins i then ma1.getD i 0 else ma2.getD i 0)

/-- Translation of `HybridGAVNSScheduler.order_crossover`.  `s`,`e` are the
sorted cut points (`start, end = sorted(random.sample(range(size), 2))`) and
`coins` decides, per position, which parent supplies each child's machine
assignment.  Children start un-evaluated (fitness `⊤`, empty schedule). -/
def order_crossover (p1 p2 : Individual) (s e : Nat) (coins : Nat → Bool) :
    Individual × Individual :=
  let child1_seq :=
    fill_remaining (segmentTemplate p1.operation_sequence s e) p2.operation_sequence
  let child2_seq :=
    fill_remaining (segmentTemplate p2.operation_sequence s e) p1.operation_sequence
  let child1_machines := coinMachines p1.machine_assignment p2.machine_assignment coins
  let child2_machines := coinMachines p2.machine_assignment p1.machine_assignment coins
  (⟨child1_machines, child1_seq, ⊤, ⊤, []⟩, ⟨child2_machines, child2_seq, ⊤, ⊤, []⟩)

/-- Append `x` unless it is already present: the
`if ... not in used: append` step of the uniform sequence crossover (the
`used` set always equals the set of elements of the child list). -/
def addIfNew (acc : List Int) (x : Int) : List Int :=
  if x ∈ acc then acc else acc ++ [x]

/-- The per-position picks of one child in `uniform_crossover`'s sequence
loop: position `i` takes `a[i]` when `coins i` is true, else `b[i]`. -/
def uniformPicks (a b : List Int) (coins : Nat → Bool) : List Int :=
  (List.range a.length).map
    (fun i => if coins i then a.getD i (-1) else b.getD i (-1))

/-- `sorted(all_ops - used)` of `uniform_crossover`: the missing operation
indices appended in ascending order. -/
def missingOps (n : Nat) (used : List Int) : List Int :=
  (rangeInt n).filter (fun x => decide (x ∉ used))

/-- One child's operation sequence in `uniform_crossover`: walk the picks,
appending each operation index not seen yet, then append the missing ones in
ascending order. -/
def uniformChildSeq (a b : List Int) (coins : Nat → Bool) : List Int :=
  let acc := (uniformPicks a b coins).foldl addIfNew []
  acc ++ missingOps a.length acc

/-- Translation of `HybridGAVNSScheduler.uniform_crossover`.  `coinsM` is
the coin stream of the machine-assignment loop, `coinsS` the (independent)
coin stream of the sequence loop; at position `i` with coin true, child 1
draws from parent 1 and child 2 from parent 2, and conversely. -/
def uniform_crossover (p1 p2 : Individual) (coinsM coinsS : Nat → Bool) :
    Individual × Individual :=
  let child1_machines := coinMachines p1.machine_assignment p2.machine_assignment coinsM
  let child2_machines := coinMachines p2.machine_assignment p1.machine_assignment coinsM
  let child1_seq := uniformChildSeq p1.operation_sequence p2.operation_sequence coinsS
  let child2_seq := uniformChildSeq p2.operation_sequence p1.operation_sequence coinsS
  (⟨child1_machines, child1_seq, ⊤, ⊤, []⟩, ⟨child2_machines, child2_seq, ⊤, ⊤, []⟩)

/-- The child template of `position_based_crossover`: `[-1]*size` with
`child_seq[pos] = parent_seq[pos]` for each sampled position. -/
def positionTemplate (parent : List Int) (positions : List Nat) : List Int :=
  (List.range parent.length).map
    (fun i => if i ∈ positions then parent.getD i (-1) else -1)

/-- `selected_ops = {parent_seq[pos] for pos in positions}` (as a list; only
membership is ever used). -/
def selectedOps (parent : List Int) (positions : List Nat) : List Int :=
  positions.map (fun pos => parent.getD pos (-1))

/-- `fill_remaining_pbx(child_seq, other_parent_seq, selected_ops)`: the
remaining elements are the other parent's entries outside `selected_ops`,
filled into the `-1` holes in order. -/
def fill_remaining_pbx (child other selected : List Int) : List Int :=
  fillHoles child (other.filter (fun x => decide (x ∉ selected)))

/-- The machine-assignment part of `position_based_crossover`: a copy of
one parent's vector with the sampled positions overwritten by the other
parent's values. -/
def positionMachines (own other : List Nat) (positions : List Nat) : List Nat :=
  (List.range own.length).map
    (fun i => if i ∈ positions then other.getD i 0 else own.getD i 0)

/-- Translation of `HybridGAVNSScheduler.position_based_crossover`;
`positions` is the sampled position set
(`random.sample(range(size), size // 3)`). -/
def position_based_crossover (p1 p2 : Individual) (positions : List Nat) :
    Individual × Individual :=
  let child1_seq :=
    fill_remaining_pbx (positionTemplate p1.operation_sequence positions)
      p2.operation_sequence (selectedOps p1.operation_sequence positions)
  let child2_seq :=
    fill_remaining_pbx (positionTemplate p2.operation_sequence positions)
      p1.operation_sequence (selectedOps p2.operation_sequence positions)
  let child1_machines :=
    positionMachines p1.machine_assignment p2.machine_assignment positions
  let child2_machines :=
    positionMachines p2.machine_assignment p1.machine_assignment positions
  (⟨child1_machines, child1_seq, ⊤, ⊤, []⟩, ⟨child2_machines, child2_seq, ⊤, ⊤, []⟩)

/-! ### Mutation -/

/-- The sequence-mutation strategy drawn by
`random.choice(['swap', 'insert', 'reverse'])` together with the random
indices each branch draws. -/
inductive MutStrategy where
  | swapAt (i j : Nat)
  | insertAt (i j : Nat)
  | reverseAt (s e : Nat)
deriving DecidableEq, Repr

/-- The in-place tuple swap
`seq[i], seq[j] = seq[j], seq[i]` (both right-hand sides read before
assignment). -/
def swapPositions (l : List Int) (i j : Nat) : List Int :=
  (l.set i (l.getD j 0)).set j (l.getD i 0)

/-- The sequence part of `mutate_individual`, one strategy applied:
`swap` exchanges two positions, `insert` pops position `i` and re-inserts
the element at position `j` of the shortened list, `reverse` reverses the
slice `seq[s : e+1]` (the code bounds `e` by `min(s + 5, size - 1)`). -/
def applySeqMutation (l : List Int) : MutStrategy → List Int
  | .swapAt i j => swapPositions l i j
  | .insertAt i j => (l.eraseIdx i).insertIdx j (l.getD i 0)
  | .reverseAt s e =>
      l.take s ++ ((l.drop s).take (e + 1 - s)).reverse ++ l.drop (e + 1)

/-- The index ranges Python's random draws guarantee for each strategy:
swap indices come from `random.sample(range(size), 2)`, `random.choice` of
positions or `randint(0, size-1)`; insert uses `randint(0, size-1)` twice;
reverse uses `start = randint(0, size-1)` and `end = randint(start, ...)`. -/
def StratWF (n : Nat) : MutStrategy → Prop
  | .swapAt i j => i < n ∧ j < n
  | .insertAt i j => i < n ∧ j ≤ n - 1
  | .reverseAt s e => s ≤ e

/-- Translation of `HybridGAVNSScheduler.mutate_individual`.
`machinePick i = some m` records that the machine-assignment loop mutated
position `i` to machine `m` (covering both the critical-path-biased and the
standard branch, whose choices are random); `none` means the position kept
its machine.  `doSeqMut` is the outcome of `random.random() < adaptive_rate`
for the sequence mutation, and `strat` the drawn strategy with its random
indices. -/
def mutate_individual (machinePick : Nat → Option Nat) (doSeqMut : Bool)
    (strat : MutStrategy) (ind : Individual) : Individual :=
  let ma := (List.range ind.machine_assignment.length).map
    (fun i =>
      match machinePick i with
      | some m => m
      | none => ind.machine_assignment.getD i 0)
  let seq :=
    if doSeqMut then applySeqMutation ind.operation_sequence strat
    else ind.operation_sequence
  { ind with machine_assignment := ma, operation_sequence := seq }

/-! ### Variable Neighborhood Search

The four neighbourhood procedures
(`_critical_path_machine_reassignment_tabu`,
`_makespan_focused_operation_swap`, `_critical_load_balancing`,
`_advanced_sequence_optimization`) mutate a copy of the individual with
heavy use of randomness and return an optional move signature; each is
passed in as an oracle `Individual → Individual × Option String`. -/

/-- Whether an attempted move is skipped by the tabu check
(`if self.use_tabu_search and move_description and move_description in
self.tabu_list: continue`; `use_tabu_search` is the constant `True`). -/
def tabuSkip (tabu : List String) : Option String → Bool
  | some d => decide (d ∈ tabu)
  | none => false

/-- One neighbourhood iteration of `variable_neighborhood_search`: apply the
move to a fresh copy of the (so far unimproved) input, skip it when its
signature is tabu, otherwise evaluate the modified copy and accept it —
returning the evaluated individual — exactly when its fitness strictly
improves on the input's stored fitness. -/
def vnsStep (w : ℚ × ℚ × ℚ) (ops : List OpInfo) (tabu : List String)
    (best : Individual) (m : Individual → Individual × Option String) :
    Option Individual :=
  if tabuSkip tabu (m best).2 then none
  else if (evaluate_individual w ops (m best).1).fitness < best.fitness then
    some (evaluate_individual w ops (m best).1)
  else none

/-- Translation of `HybridGAVNSScheduler.variable_neighborhood_search`: try
the neighbourhoods 1–4 in order (`range(1, min(self.max_neighborhoods + 1,
5))` with the constant `max_neighborhoods = 4`), breaking at the first
accepted strict improvement; if none is accepted, return the (copy of the)
original individual. -/
def variable_neighborhood_search (w : ℚ × ℚ × ℚ) (ops : List OpInfo)
    (tabu : List String) (m1 m2 m3 m4 : Individual → Individual × Option String)
    (ind : Individual) : Individual :=
  match vnsStep w ops tabu ind m1 with
  | some improved => improved
  | none =>
    match vnsStep w ops tabu ind m2 with
    | some improved => improved
    | none =>
      match vnsStep w ops tabu ind m3 with
      | some improved => improved
      | none =>
        match vnsStep w ops tabu ind m4 with
        | some improved => improved
        | none => ind

/-! ### The generational loop of `genetic_algorithm`

Everything stochastic inside one generation — the VNS results for the top
elites and the offspring produced by tournament selection, crossover,
mutation and selective VNS — is abstracted into a per-generation oracle; the
elitism, truncation and sorting structure is translated directly. -/

/-- The ascending-by-fitness comparison of
`population.sort(key=lambda x: x.fitness)`. -/
def fitLE (a b : Individual) : Bool := decide (a.fitness ≤ b.fitness)

/-- One generation's random outcomes: the elite count
(`max(1, int(population_size * elite_ratio))` — the `max 1` is re-applied in
`genStep`), whether this is a VNS generation (`generation % 20 == 0`), the
VNS outcome for an elite individual, and the evaluated offspring produced by
the selection → crossover → mutation → selective-VNS → decode pipeline. -/
structure GenOracle where
  eliteCount : Nat
  doVNS : Bool
  vns : Individual → Individual
  offspring : List Individual

/-- The elite-refinement loop
`for i in range(min(2, len(elite))): improved = vns(elite[i]);
if improved.fitness < elite[i].fitness: new_population[i] = improved`. -/
def vnsRefine (vns : Individual → Individual) (elite newPop : List Individual) :
    List Individual :=
  (List.range (min 2 elite.length)).foldl
    (fun np i =>
      let improved := vns (elite.getD i dummyInd)
      if improved.fitness < (elite.getD i dummyInd).fitness then np.set i improved
      else np)
    newPop

/-- One `GenerationStep` of `genetic_algorithm`: copy the elite slice of the
(sorted) population, periodically refine the top 2 by VNS keeping only
strict improvements, fill up with offspring, truncate to `popSize` and sort
ascending by fitness. -/
def genStep (popSize : Nat) (g : GenOracle) (pop : List Individual) :
    List Individual :=
  let eliteCount := max 1 g.eliteCount
  let elite := pop.take eliteCount
  let refined := if g.doVNS then vnsRefine g.vns elite elite else elite
  ((refined ++ g.offspring).take popSize).mergeSort fitLE

/-- The full generational loop `for generation in range(self.generations)`,
one oracle per generation, starting from the already-sorted initial
population. -/
def genetic_algorithm_loop (popSize : Nat) (gens : List GenOracle)
    (pop0 : List Individual) : List Individual :=
  gens.foldl (fun pop g => genStep popSize g pop) pop0

/-- `return population[0]`: the individual `genetic_algorithm` returns at
termination. -/
def genetic_algorithm_result (popSize : Nat) (gens : List GenOracle)
    (pop0 : List Individual) : Individual :=
  (genetic_algorithm_loop popSize gens pop0).getD 0 dummyInd

/-! ### Problem-model loading and the run entry point -/

/-- One raw order record of a user-orders JSON file: the `product` string
and the parsed `quantity`. -/
structure RawOrder where
  product : String
  quantity : Nat
deriving DecidableEq, Repr

/-- An `Order` as in `fjsp_scheduler.Order`. -/
structure Order where
  job_name : String
  quantity : Nat
  user : String
  order_id : String
deriving DecidableEq, Repr

/-- The `product.lower()` normalization applied to each incoming product
string (character-wise ASCII lower-casing; defined over the character list
so that it evaluates by kernel reduction). -/
def lowerString (s : String) : String := ⟨s.data.map Char.toLower⟩

/-- The hard-coded `job_operation_mapping` dict of `__init__`. -/
def job_operation_mapping (product : String) : Option String :=
  if product = "pants" then some "Job1"
  else if product = "pant" then some "Job1"
  else if product = "shirt" then some "Job2"
  else if product = "curtain" then some "Job3"
  else if product = "towel" then some "Job4"
  else if product = "t-shirt" then some "Job5"
  else if product = "t-shirts" then some "Job5"
  else none

/-- Translation of the per-file order loop of
`HybridGAVNSScheduler.load_user_orders` for one orders file of user
`user` with timestamp `ts`: each record whose lower-cased product is a key
of `job_operation_mapping` becomes an `Order`; records with unknown
products are skipped without any error (there is no `raise` in this code
path, so the result is always `Except.ok`). -/
def load_user_orders (user ts : String) (raws : List RawOrder) :
    Except String (List Order) :=
  Except.ok <| raws.filterMap fun r =>
    (job_operation_mapping (lowerString r.product)).map fun job_name =>
      ⟨job_name, r.quantity, user, user ++ "_" ++ ts ++ "_" ++ lowerString r.product⟩

/-- The eligibility filter of `prepare_problem_data`: a declared machine
enters `operation_to_machines[operation_id]` only
`if machine in job.operations[op_idx]['processing_times']`; a machine with
no declared duration is silently dropped, again without any error. -/
def eligible_machines (declared : List Nat) (processing_times : Nat → Option Nat) :
    List Nat :=
  declared.filter (fun m => (processing_times m).isSome)

/-- The dict `run_scheduling` returns: an optional error message, the
formatted tasks, machine list and makespan (the summary sub-dict is left
abstract in the task list's payload). -/
structure RunResult where
  error : Option String
  tasks : List ScheduledTask
  machines : List Nat
  makespan : Nat
deriving DecidableEq

/-- The structured no-op result returned when there are no operations to
schedule. -/
def noOpResult : RunResult := ⟨some "No operations to schedule", [], [], 0⟩

/-- The result assembled in the `except Exception` handler: the exception
message, empty task list, empty machine list, makespan 0. -/
def errorResult (msg : String) : RunResult := ⟨some msg, [], [], 0⟩

/-- Translation of `HybridGAVNSScheduler.run_scheduling`.  The loading
phase (`load_machine_environment`; `load_user_orders`;
`prepare_problem_data`), the search (`genetic_algorithm`) and the rendering
(`get_schedule_data`) are oracles that either produce their value or raise
(`Except.error`); any raise anywhere inside the `try` block is caught by the
single `except Exception` handler and turned into `errorResult`, and a
problem with zero operations short-circuits to the no-op result before the
search starts. -/
def run_scheduling (load : Except String (List OpInfo))
    (ga : List OpInfo → Except String Individual)
    (render : Individual → Except String RunResult) : RunResult :=
  let body : Except String RunResult := do
    let ops ← load
    if ops.isEmpty then
      pure noOpResult
    else do
      let best ← ga ops
      render best
  match body with
  | Except.ok r => r
  | Except.error msg => errorResult msg

/-! ### Derived predicates used by the theorems -/

/-- Every recorded task ends no later than its machine's cursor: the key
invariant of one decode pass. -/
def MachBound (st : DecodeState) : Prop :=
  ∀ t ∈ st.sched, t.end_time ≤ st.avail t.machine_id

/-- Two scheduled tasks do not overlap when on the same machine (the first
listed one ends before the second starts). -/
def noOverlapOn (a b : ScheduledTask) : Prop :=
  a.machine_id = b.machine_id → a.end_time ≤ b.start_time

/-- A population sorted ascending by fitness (the state after every
`population.sort(key=lambda x: x.fitness)`). -/
def SortedPop (pop : List Individual) : Prop :=
  pop.Pairwise (fun a b => a.fitness ≤ b.fitness)

/-- The best (lowest) fitness of a sorted population: its head's fitness. -/
def bestFit (pop : List Individual) : WithTop Nat :=
  (pop.getD 0 dummyInd).fitness

/-- The processing time `decodeStep` uses for sequence entry `opId` (with
the source's default of 10 for a machine without a declared duration). -/
def durOf (ops : List OpInfo) (ma : List Nat) (opId : Int) : Nat :=
  ((ops.getD opId.toNat defaultOpInfo).processing_times (ma.getD opId.toNat 0)).getD 10

/-- The start time `decodeStep` assigns from state `st` to sequence entry
`opId`. -/
def startTimeOf (ops : List OpInfo) (ma : List Nat) (st : DecodeState) (opId : Int) :
    Nat :=
  let info := ops.getD opId.toNat defaultOpInfo
  let m := ma.getD opId.toNat 0
  let start1 :=
    if 0 < info.task.operation_idx then
      max (st.avail m) (st.comp info.task.unit (info.task.operation_idx - 1))
    else st.avail m
  max start1 (st.avail m)

/-! ## Theorems -/

/-- The decoder step computes the start time the specification describes:
the `operation_idx > 0` guard plus `schedule_task`'s second
`max(start_time, available_time)` collapse to a single
`max(cursor, predecessor_completion)`. -/
theorem decodeStep_eq_spec (ops : List OpInfo) (ma : List Nat) (st : DecodeState)
    (opId : Int) : decodeStep ops ma st opId = decodeStepSpec ops ma st opId := by
  have h : ∀ (a c k : Nat),
      max (if 0 < k then max a c else a) a = max a (if k = 0 then 0 else c) := by
    intro a c k
    rcases Nat.eq_zero_or_pos k with h0 | h0
    · simp [h0]
    · have hne : k ≠ 0 := Nat.pos_iff_ne_zero.mp h0
      simp only [if_pos h0, if_neg hne]
      omega
  simp only [decodeStep, decodeStepSpec]
  rw [h]

/-- The two decode passes agree on every chromosome. -/
theorem evaluate_eq_spec (w : ℚ × ℚ × ℚ) (ops : List OpInfo) (ind : Individual) :
    evaluate_individual w ops ind = evaluateSpec ops ind := by
  have h : decodeStep ops ind.machine_assignment =
      decodeStepSpec ops ind.machine_assignment :=
    funext fun st => funext fun opId => decodeStep_eq_spec ops _ st opId
  simp [evaluate_individual, evaluateSpec, decodeSeq, h]

/-- C2: the decoder walks `operation_sequence` in order computing
`start = max(machine cursor, recorded completion of the unit's previous
operation, 0 when missing)` and `end = start + duration`, advancing the
machine's cursor to `end`; afterwards `fitness` and `actual_makespan` are
both the maximum recorded end time (0 with no tasks), and the configured
priority weights have no effect on the fitness value. -/
theorem decoder_matches_described_algorithm (w w' : ℚ × ℚ × ℚ) (ops : List OpInfo)
    (ind : Individual) :
    evaluate_individual w ops ind = evaluateSpec ops ind ∧
    evaluate_individual w ops ind = evaluate_individual w' ops ind ∧
    (evaluate_individual w ops ind).fitness =
      (evaluate_individual w ops ind).actual_makespan ∧
    (evaluate_individual w ops ind).fitness =
      ((makespanOf (evaluate_individual w ops ind).schedule : Nat) : WithTop Nat) := by
  refine ⟨evaluate_eq_spec w ops ind, ?_, rfl, rfl⟩
  rw [evaluate_eq_spec w ops ind, evaluate_eq_spec w' ops ind]

/-- C6: decoding is a pure function of the chromosome and the problem data —
two individuals with the same `machine_assignment` and `operation_sequence`
decode to the same schedule and fitness, and re-evaluating an
already-evaluated individual is the identity on the whole record. -/
theorem decoder_deterministic_idempotent (w : ℚ × ℚ × ℚ) (ops : List OpInfo)
    (i1 i2 : Individual) (hma : i1.machine_assignment = i2.machine_assignment)
    (hseq : i1.operation_sequence = i2.operation_sequence) :
    (evaluate_individual w ops i1).fitness = (evaluate_individual w ops i2).fitness ∧
    (evaluate_individual w ops i1).schedule = (evaluate_individual w ops i2).schedule ∧
    evaluate_individual w ops (evaluate_individual w ops i1) =
      evaluate_individual w ops i1 := by
  refine ⟨?_, ?_, ?_⟩ <;> simp [evaluate_individual, hma, hseq]

/-- Witness for C6 at a concrete instance: two individuals that differ only
in their derived fields decode identically, and evaluation is idempotent. -/
theorem decoder_deterministic_idempotent_witness :
    (evaluate_individual configuredWeights
        [⟨⟨0, 0⟩, fun m => if m = 0 then some 7 else none⟩]
        ⟨[0], [0], ⊤, ⊤, []⟩).fitness =
      (evaluate_individual configuredWeights
        [⟨⟨0, 0⟩, fun m => if m = 0 then some 7 else none⟩]
        ⟨[0], [0], (3 : Nat), (3 : Nat), []⟩).fitness ∧
    (evaluate_individual configuredWeights
        [⟨⟨0, 0⟩, fun m => if m = 0 then some 7 else none⟩]
        ⟨[0], [0], ⊤, ⊤, []⟩).schedule =
      (evaluate_individual configuredWeights
        [⟨⟨0, 0⟩, fun m => if m = 0 then some 7 else none⟩]
        ⟨[0], [0], (3 : Nat), (3 : Nat), []⟩).schedule ∧
    evaluate_individual configuredWeights
        [⟨⟨0, 0⟩, fun m => if m = 0 then some 7 else none⟩]
        (evaluate_individual configuredWeights
          [⟨⟨0, 0⟩, fun m => if m = 0 then some 7 else none⟩]
          ⟨[0], [0], ⊤, ⊤, []⟩) =
      evaluate_individual configuredWeights
        [⟨⟨0, 0⟩, fun m => if m = 0 then some 7 else none⟩]
        ⟨[0], [0], ⊤, ⊤, []⟩ :=
  decoder_deterministic_idempotent configuredWeights
    [⟨⟨0, 0⟩, fun m => if m = 0 then some 7 else none⟩]
    ⟨[0], [0], ⊤, ⊤, []⟩ ⟨[0], [0], (3 : Nat), (3 : Nat), []⟩ rfl rfl

/-- A decode step never lowers any machine cursor. -/
theorem avail_le_decodeStep (ops : List OpInfo) (ma : List Nat) (st : DecodeState)
    (opId : Int) (m : Nat) : st.avail m ≤ (decodeStep ops ma st opId).avail m := by
  simp only [decodeStep]
  by_cases h : m = ma.getD opId.toNat 0
  · rw [if_pos h]
    subst h
    exact le_trans (le_max_right _ _) (Nat.le_add_right _ _)
  · rw [if_neg h]

/-- Folding decode steps never lowers any machine cursor. -/
theorem avail_le_foldl (ops : List OpInfo) (ma : List Nat) (s : List Int)
    (st : DecodeState) (m : Nat) :
    st.avail m ≤ (s.foldl (decodeStep ops ma) st).avail m := by
  induction s generalizing st with
  | nil => simp
  | cons a t ih =>
      exact le_trans (avail_le_decodeStep ops ma st a m)
        (by simpa using ih (decodeStep ops ma st a))

/-- A decode step keeps the machine-bound invariant. -/
theorem machBound_decodeStep (ops : List OpInfo) (ma : List Nat) (st : DecodeState)
    (opId : Int) (h : MachBound st) : MachBound (decodeStep ops ma st opId) := by
  intro t ht
  have hsched : (decodeStep ops ma st opId).sched =
      st.sched ++ [⟨(ops.getD opId.toNat defaultOpInfo).task, ma.getD opId.toNat 0,
        _, _, _⟩] := rfl
  rw [hsched, List.mem_append] at ht
  rcases ht with ht | ht
  · exact le_trans (h t ht) (avail_le_decodeStep ops ma st opId t.machine_id)
  · rcases List.mem_singleton.mp ht with rfl
    simp [decodeStep]

/-- A decode step keeps per-machine non-overlap of the recorded tasks. -/
theorem pairwise_decodeStep (ops : List OpInfo) (ma : List Nat) (st : DecodeState)
    (opId : Int) (hb : MachBound st) (hp : st.sched.Pairwise noOverlapOn) :
    (decodeStep ops ma st opId).sched.Pairwise noOverlapOn := by
  have hsched : (decodeStep ops ma st opId).sched =
      st.sched ++ [⟨(ops.getD opId.toNat defaultOpInfo).task, ma.getD opId.toNat 0,
        _, _, _⟩] := rfl
  rw [hsched]
  refine List.pairwise_append.mpr ⟨hp, List.pairwise_singleton _ _, ?_⟩
  intro a ha b hbmem
  rcases List.mem_singleton.mp hbmem with rfl
  intro hmach
  have hend : a.end_time ≤ st.avail (ma.getD opId.toNat 0) := by
    have := hb a ha
    rwa [hmach] at this
  exact le_trans hend (le_max_right _ _)

/-- Folding decode steps keeps both invariants. -/
theorem invariants_foldl (ops : List OpInfo) (ma : List Nat) (s : List Int)
    (st : DecodeState) (hb : MachBound st) (hp : st.sched.Pairwise noOverlapOn) :
    MachBound (s.foldl (decodeStep ops ma) st) ∧
      (s.foldl (decodeStep ops ma) st).sched.Pairwise noOverlapOn := by
  induction s generalizing st with
  | nil => exact ⟨hb, hp⟩
  | cons a t ih =>
      simpa using ih (decodeStep ops ma st a)
        (machBound_decodeStep ops ma st a hb)
        (pairwise_decodeStep ops ma st a hb hp)

/-- C3: in any decode pass the tasks assigned to one machine occupy
pairwise non-overlapping [start, end) intervals, and every machine's
`available_time` cursor is non-decreasing from each position of the pass to
the next. -/
theorem machine_exclusivity_and_monotone_cursor (ops : List OpInfo) (ma : List Nat)
    (seq : List Int) :
    (decodeSeq ops ma seq).sched.Pairwise noOverlapOn ∧
    ∀ (m k : Nat), (decodeSeq ops ma (seq.take k)).avail m ≤
      (decodeSeq ops ma (seq.take (k + 1))).avail m := by
  constructor
  · exact (invariants_foldl ops ma seq initState (by intro t ht; cases ht)
      List.Pairwise.nil).2
  · intro m k
    rw [List.take_succ]
    unfold decodeSeq
    rw [List.foldl_append]
    exact avail_le_foldl ops ma _ _ m

/-- The decode step appends exactly one scheduled task, with the start time
and duration named by `startTimeOf` and `durOf`. -/
theorem decodeStep_sched_eq (ops : List OpInfo) (ma : List Nat) (st : DecodeState)
    (opId : Int) :
    (decodeStep ops ma st opId).sched = st.sched ++
      [⟨(ops.getD opId.toNat defaultOpInfo).task, ma.getD opId.toNat 0,
        startTimeOf ops ma st opId, startTimeOf ops ma st opId + durOf ops ma opId,
        durOf ops ma opId⟩] := rfl

/-- After decoding an operation of task `⟨u, i⟩`, the completion marker of
`(u, i)` is that operation's end time. -/
theorem decodeStep_comp_self (ops : List OpInfo) (ma : List Nat) (st : DecodeState)
    (opId : Int) (u i : Nat) (h : (ops.getD opId.toNat defaultOpInfo).task = ⟨u, i⟩) :
    (decodeStep ops ma st opId).comp u i =
      startTimeOf ops ma st opId + durOf ops ma opId := by
  simp only [decodeStep, startTimeOf, durOf]
  rw [if_pos]
  rw [h]
  exact ⟨rfl, rfl⟩

/-- Decoding an operation of a different task leaves the completion marker
of `(u, i)` unchanged. -/
theorem decodeStep_comp_ne (ops : List OpInfo) (ma : List Nat) (st : DecodeState)
    (opId : Int) (u i : Nat) (h : (ops.getD opId.toNat defaultOpInfo).task ≠ ⟨u, i⟩) :
    (decodeStep ops ma st opId).comp u i = st.comp u i := by
  simp only [decodeStep]
  rw [if_neg]
  rintro ⟨h1, h2⟩
  exact h (by cases hT : (ops.getD opId.toNat defaultOpInfo).task with
    | mk tu ti => simp_all)

/-- The start time of an operation with `operation_idx = i + 1` is at least
the currently recorded completion of `(u, i)`. -/
theorem comp_le_startTimeOf (ops : List OpInfo) (ma : List Nat) (st : DecodeState)
    (opId : Int) (u i : Nat)
    (h : (ops.getD opId.toNat defaultOpInfo).task = ⟨u, i + 1⟩) :
    st.comp u i ≤ startTimeOf ops ma st opId := by
  simp only [startTimeOf, h]
  simp only [Nat.add_sub_cancel]
  refine le_trans (le_max_right (st.avail (ma.getD opId.toNat 0)) _) ?_
  rw [if_pos (Nat.succ_pos i)]
  exact le_max_left _ _

/-- Folding decode steps only appends to the schedule. -/
theorem foldl_sched_append (ops : List OpInfo) (ma : List Nat) (s : List Int)
    (st : DecodeState) :
    ∃ t, (s.foldl (decodeStep ops ma) st).sched = st.sched ++ t := by
  induction s generalizing st with
  | nil => exact ⟨[], (List.append_nil _).symm⟩
  | cons a r ih =>
      rcases ih (decodeStep ops ma st a) with ⟨t, ht⟩
      refine ⟨[⟨(ops.getD a.toNat defaultOpInfo).task, ma.getD a.toNat 0,
        startTimeOf ops ma st a, startTimeOf ops ma st a + durOf ops ma a,
        durOf ops ma a⟩] ++ t, ?_⟩
      rw [List.foldl_cons, ht, decodeStep_sched_eq, List.append_assoc]

/-- Folding decode steps adds one scheduled task per sequence entry. -/
theorem foldl_sched_length (ops : List OpInfo) (ma : List Nat) (s : List Int)
    (st : DecodeState) :
    (s.foldl (decodeStep ops ma) st).sched.length = st.sched.length + s.length := by
  induction s generalizing st with
  | nil => simp
  | cons a r ih =>
      rw [List.foldl_cons, ih, decodeStep_sched_eq]
      simp
      omega

/-- Folding decode steps over operations of other tasks leaves a completion
marker unchanged. -/
theorem foldl_comp_preserved (ops : List OpInfo) (ma : List Nat) (s : List Int)
    (st : DecodeState) (u i : Nat)
    (h : ∀ c ∈ s, (ops.getD c.toNat defaultOpInfo).task ≠ ⟨u, i⟩) :
    (s.foldl (decodeStep ops ma) st).comp u i = st.comp u i := by
  induction s generalizing st with
  | nil => rfl
  | cons a r ih =>
      rw [List.foldl_cons, ih _ (fun c hc => h c (List.mem_cons_of_mem a hc)),
        decodeStep_comp_ne ops ma st a u i (h a (List.mem_cons_self a r))]

/-- C1 (amended): when the task of operation `i` of a unit occupies an
earlier position of `operation_sequence` than the task of operation `i + 1`
of the same unit (and no other sequence entry in between decodes a task
labelled `(u, i)`), the decoded schedule satisfies
`start_time(i+1) ≥ end_time(i)`.  The decomposition
`s1 ++ aId :: (s2 ++ bId :: s3)` places the predecessor `aId` at position
`|s1|` and the successor `bId` at position `|s1| + 1 + |s2|`. -/
theorem precedence_when_predecessor_sequenced_earlier (ops : List OpInfo)
    (ma : List Nat) (s1 s2 s3 : List Int) (aId bId : Int) (u i : Nat)
    (ha : (ops.getD aId.toNat defaultOpInfo).task = ⟨u, i⟩)
    (hb : (ops.getD bId.toNat defaultOpInfo).task = ⟨u, i + 1⟩)
    (hmid : ∀ c ∈ s2, (ops.getD c.toNat defaultOpInfo).task ≠ ⟨u, i⟩) :
    ((decodeSeq ops ma (s1 ++ aId :: (s2 ++ bId :: s3))).sched.getD s1.length
        dummySched).end_time ≤
      ((decodeSeq ops ma (s1 ++ aId :: (s2 ++ bId :: s3))).sched.getD
        (s1.length + 1 + s2.length) dummySched).start_time := by
  have hdec : decodeSeq ops ma (s1 ++ aId :: (s2 ++ bId :: s3)) =
      s3.foldl (decodeStep ops ma)
        (decodeStep ops ma
          (s2.foldl (decodeStep ops ma)
            (decodeStep ops ma (s1.foldl (decodeStep ops ma) initState) aId))
          bId) := by
    unfold decodeSeq
    rw [List.foldl_append, List.foldl_cons, List.foldl_append, List.foldl_cons]
  set st1 := s1.foldl (decodeStep ops ma) initState with hst1
  set stA := decodeStep ops ma st1 aId with hstA
  set st2 := s2.foldl (decodeStep ops ma) stA with hst2
  set stB := decodeStep ops ma st2 bId with hstB
  have hlen1 : st1.sched.length = s1.length := by
    rw [hst1, foldl_sched_length]; simp [initState]
  have hlenA : stA.sched.length = s1.length + 1 := by
    rw [hstA, decodeStep_sched_eq, List.length_append, hlen1]; rfl
  have hlen2 : st2.sched.length = s1.length + 1 + s2.length := by
    rw [hst2, foldl_sched_length, hlenA]
  have hlenB : stB.sched.length = s1.length + 1 + s2.length + 1 := by
    rw [hstB, decodeStep_sched_eq, List.length_append, hlen2]; rfl
  rcases foldl_sched_append ops ma s3 stB with ⟨t3, ht3⟩
  rcases foldl_sched_append ops ma s2 stA with ⟨t2, ht2⟩
  -- the two schedule entries
  have hgetA : (decodeSeq ops ma (s1 ++ aId :: (s2 ++ bId :: s3))).sched.getD
      s1.length dummySched =
      ⟨(ops.getD aId.toNat defaultOpInfo).task, ma.getD aId.toNat 0,
        startTimeOf ops ma st1 aId, startTimeOf ops ma st1 aId + durOf ops ma aId,
        durOf ops ma aId⟩ := by
    rw [hdec, ht3, List.getD_append _ _ _ _ (by rw [hlenB]; omega),
      hstB, decodeStep_sched_eq, List.getD_append _ _ _ _ (by rw [hlen2]; omega),
      hst2, ht2, List.getD_append _ _ _ _ (by rw [hlenA]; omega),
      hstA, decodeStep_sched_eq, List.getD_append_right _ _ _ _ (le_of_eq hlen1)]
    rw [hlen1, Nat.sub_self]
    rfl
  have hgetB : (decodeSeq ops ma (s1 ++ aId :: (s2 ++ bId :: s3))).sched.getD
      (s1.length + 1 + s2.length) dummySched =
      ⟨(ops.getD bId.toNat defaultOpInfo).task, ma.getD bId.toNat 0,
        startTimeOf ops ma st2 bId, startTimeOf ops ma st2 bId + durOf ops ma bId,
        durOf ops ma bId⟩ := by
    rw [hdec, ht3, List.getD_append _ _ _ _ (by rw [hlenB]; omega),
      hstB, decodeStep_sched_eq, List.getD_append_right _ _ _ _ (le_of_eq hlen2)]
    rw [hlen2, Nat.sub_self]
    rfl
  rw [hgetA, hgetB]
  have hcompA : stA.comp u i = startTimeOf ops ma st1 aId + durOf ops ma aId :=
    decodeStep_comp_self ops ma st1 aId u i ha
  have hcomp2 : st2.comp u i = stA.comp u i := by
    rw [hst2]
    exact foldl_comp_preserved ops ma s2 stA u i hmid
  calc startTimeOf ops ma st1 aId + durOf ops ma aId
      = st2.comp u i := by rw [hcomp2, hcompA]
    _ ≤ startTimeOf ops ma st2 bId := comp_le_startTimeOf ops ma st2 bId u i hb

/-- Witness for the amended C1 theorem: one unit with operations 0 (machine
0, duration 5) and 1 (machine 1, duration 3), sequenced in template order —
operation 0 ends at 5 and operation 1 starts at 5. -/
theorem precedence_when_predecessor_sequenced_earlier_witness :
    ((decodeSeq [⟨⟨0, 0⟩, fun m => if m = 0 then some 5 else none⟩,
        ⟨⟨0, 1⟩, fun m => if m = 1 then some 3 else none⟩] [0, 1]
        [0, 1]).sched.getD 0 dummySched).end_time ≤
      ((decodeSeq [⟨⟨0, 0⟩, fun m => if m = 0 then some 5 else none⟩,
        ⟨⟨0, 1⟩, fun m => if m = 1 then some 3 else none⟩] [0, 1]
        [0, 1]).sched.getD 1 dummySched).start_time :=
  precedence_when_predecessor_sequenced_earlier
    [⟨⟨0, 0⟩, fun m => if m = 0 then some 5 else none⟩,
     ⟨⟨0, 1⟩, fun m => if m = 1 then some 3 else none⟩]
    [0, 1] [] [] [] 0 1 0 0 rfl rfl
    (fun c hc => absurd hc (List.not_mem_nil c))

/-- C1 counterexample: the same two-operation unit with the valid
permutation `operation_sequence = [1, 0]` (successor before predecessor)
and eligible machine assignments decodes operation 1 to start at time 0
although operation 0 ends at time 5 — the schedule's first entry is the
unit's operation 1 and its second entry the unit's operation 0, so
`start_time(i+1) ≥ end_time(i)` is violated. -/
theorem precedence_counterexample :
    ([(1 : Int), 0]).Perm (rangeInt 2) ∧
    ((([⟨⟨0, 0⟩, fun m => if m = 0 then some 5 else none⟩,
        ⟨⟨0, 1⟩, fun m => if m = 1 then some 3 else none⟩] :
          List OpInfo).getD 0 defaultOpInfo).processing_times 0).isSome = true ∧
    ((([⟨⟨0, 0⟩, fun m => if m = 0 then some 5 else none⟩,
        ⟨⟨0, 1⟩, fun m => if m = 1 then some 3 else none⟩] :
          List OpInfo).getD 1 defaultOpInfo).processing_times 1).isSome = true ∧
    (evaluate_individual configuredWeights
        [⟨⟨0, 0⟩, fun m => if m = 0 then some 5 else none⟩,
         ⟨⟨0, 1⟩, fun m => if m = 1 then some 3 else none⟩]
        ⟨[0, 1], [1, 0], ⊤, ⊤, []⟩).schedule =
      [⟨⟨0, 1⟩, 1, 0, 3, 3⟩, ⟨⟨0, 0⟩, 0, 0, 5, 5⟩] ∧
    ¬ (((evaluate_individual configuredWeights
        [⟨⟨0, 0⟩, fun m => if m = 0 then some 5 else none⟩,
         ⟨⟨0, 1⟩, fun m => if m = 1 then some 3 else none⟩]
        ⟨[0, 1], [1, 0], ⊤, ⊤, []⟩).schedule.getD 0 dummySched).start_time ≥
      ((evaluate_individual configuredWeights
        [⟨⟨0, 0⟩, fun m => if m = 0 then some 5 else none⟩,
         ⟨⟨0, 1⟩, fun m => if m = 1 then some 3 else none⟩]
        ⟨[0, 1], [1, 0], ⊤, ⊤, []⟩).schedule.getD 1 dummySched).end_time) := by
  refine ⟨by decide, rfl, rfl, rfl, by decide⟩

/-- Every recorded end time is bounded by the makespan. -/
theorem le_makespanOf (sched : List ScheduledTask) (t : ScheduledTask)
    (ht : t ∈ sched) : t.end_time ≤ makespanOf sched := by
  induction sched with
  | nil => cases ht
  | cons a r ih =>
      rcases List.mem_cons.mp ht with rfl | ht
      · exact le_max_left _ _
      · exact le_trans (ih ht) (le_max_right _ _)

/-- C10: when a task's assigned machine has no entry in its operation's
processing-times table, the decoder schedules it anyway with the default
duration 10, which enters its start/end times and bounds the makespan. -/
theorem default_duration_for_missing_machine (ops : List OpInfo) (ma : List Nat)
    (s1 s2 : List Int) (opId : Int)
    (h : (ops.getD opId.toNat defaultOpInfo).processing_times
      (ma.getD opId.toNat 0) = none) :
    ((decodeSeq ops ma (s1 ++ opId :: s2)).sched.getD s1.length
        dummySched).processing_time = 10 ∧
    ((decodeSeq ops ma (s1 ++ opId :: s2)).sched.getD s1.length
        dummySched).end_time =
      ((decodeSeq ops ma (s1 ++ opId :: s2)).sched.getD s1.length
        dummySched).start_time + 10 ∧
    ((decodeSeq ops ma (s1 ++ opId :: s2)).sched.getD s1.length
        dummySched).end_time ≤
      makespanOf (decodeSeq ops ma (s1 ++ opId :: s2)).sched := by
  have hdec : decodeSeq ops ma (s1 ++ opId :: s2) =
      s2.foldl (decodeStep ops ma)
        (decodeStep ops ma (s1.foldl (decodeStep ops ma) initState) opId) := by
    unfold decodeSeq
    rw [List.foldl_append, List.foldl_cons]
  set st1 := s1.foldl (decodeStep ops ma) initState with hst1
  have hlen1 : st1.sched.length = s1.length := by
    rw [hst1, foldl_sched_length]; simp [initState]
  have hdur : durOf ops ma opId = 10 := by
    unfold durOf
    rw [h]
    rfl
  rcases foldl_sched_append ops ma s2 (decodeStep ops ma st1 opId) with ⟨t2, ht2⟩
  have hgd : (decodeSeq ops ma (s1 ++ opId :: s2)).sched.getD s1.length dummySched =
      ⟨(ops.getD opId.toNat defaultOpInfo).task, ma.getD opId.toNat 0,
        startTimeOf ops ma st1 opId, startTimeOf ops ma st1 opId + durOf ops ma opId,
        durOf ops ma opId⟩ := by
    rw [hdec, ht2, decodeStep_sched_eq,
      List.getD_append _ _ _ _ (by simp [hlen1]),
      List.getD_append_right _ _ _ _ (le_of_eq hlen1),
      hlen1, Nat.sub_self]
    rfl
  have hmem : ((decodeSeq ops ma (s1 ++ opId :: s2)).sched.getD s1.length dummySched) ∈
      (decodeSeq ops ma (s1 ++ opId :: s2)).sched := by
    have hlt : s1.length < (decodeSeq ops ma (s1 ++ opId :: s2)).sched.length := by
      rw [hdec, foldl_sched_length, decodeStep_sched_eq, List.length_append, hlen1]
      simp only [List.length_singleton]
      omega
    rw [List.getD_eq_getElem _ _ hlt]
    exact List.getElem_mem hlt
  refine ⟨?_, ?_, le_makespanOf _ _ hmem⟩
  · rw [hgd, hdur]
  · rw [hgd, hdur]

/-- An accepted VNS move is a strict fitness improvement over the input. -/
theorem vnsStep_improves (w : ℚ × ℚ × ℚ) (ops : List OpInfo) (tabu : List String)
    (best : Individual) (m : Individual → Individual × Option String)
    (x : Individual) (h : vnsStep w ops tabu best m = some x) :
    x.fitness < best.fitness := by
  unfold vnsStep at h
  split at h
  · cases h
  · split at h
    · rename_i hlt
      injection h with hx
      exact hx ▸ hlt
    · cases h

/-- C9: `variable_neighborhood_search` tries its 4 neighbourhood moves in
the fixed order 1–4, returns the evaluated result of the first accepted
(non-tabu, strictly improving) move, always returns an individual whose
fitness is at most the input's, and returns the input itself — same
chromosome, same schedule, same fitness — when no move is accepted. -/
theorem vns_first_improvement (w : ℚ × ℚ × ℚ) (ops : List OpInfo)
    (tabu : List String) (m1 m2 m3 m4 : Individual → Individual × Option String)
    (ind : Individual) :
    (variable_neighborhood_search w ops tabu m1 m2 m3 m4 ind).fitness ≤
        ind.fitness ∧
    (∀ x, vnsStep w ops tabu ind m1 = some x →
      variable_neighborhood_search w ops tabu m1 m2 m3 m4 ind = x) ∧
    (vnsStep w ops tabu ind m1 = none → ∀ x, vnsStep w ops tabu ind m2 = some x →
      variable_neighborhood_search w ops tabu m1 m2 m3 m4 ind = x) ∧
    (vnsStep w ops tabu ind m1 = none → vnsStep w ops tabu ind m2 = none →
      ∀ x, vnsStep w ops tabu ind m3 = some x →
      variable_neighborhood_search w ops tabu m1 m2 m3 m4 ind = x) ∧
    (vnsStep w ops tabu ind m1 = none → vnsStep w ops tabu ind m2 = none →
      vnsStep w ops tabu ind m3 = none → ∀ x, vnsStep w ops tabu ind m4 = some x →
      variable_neighborhood_search w ops tabu m1 m2 m3 m4 ind = x) ∧
    (vnsStep w ops tabu ind m1 = none → vnsStep w ops tabu ind m2 = none →
      vnsStep w ops tabu ind m3 = none → vnsStep w ops tabu ind m4 = none →
      variable_neighborhood_search w ops tabu m1 m2 m3 m4 ind = ind) := by
  refine ⟨?_, ?_, ?_, ?_, ?_, ?_⟩
  · unfold variable_neighborhood_search
    cases h1 : vnsStep w ops tabu ind m1 with
    | some x1 => exact le_of_lt (vnsStep_improves w ops tabu ind m1 x1 h1)
    | none =>
      cases h2 : vnsStep w ops tabu ind m2 with
      | some x2 => exact le_of_lt (vnsStep_improves w ops tabu ind m2 x2 h2)
      | none =>
        cases h3 : vnsStep w ops tabu ind m3 with
        | some x3 => exact le_of_lt (vnsStep_improves w ops tabu ind m3 x3 h3)
        | none =>
          cases h4 : vnsStep w ops tabu ind m4 with
          | some x4 => exact le_of_lt (vnsStep_improves w ops tabu ind m4 x4 h4)
          | none => exact le_refl _
  · intro x hx
    unfold variable_neighborhood_search
    rw [hx]
  · intro h1 x hx
    unfold variable_neighborhood_search
    rw [h1, hx]
  · intro h1 h2 x hx
    unfold variable_neighborhood_search
    rw [h1, h2, hx]
  · intro h1 h2 h3 x hx
    unfold variable_neighborhood_search
    rw [h1, h2, h3, hx]
  · intro h1 h2 h3 h4
    unfold variable_neighborhood_search
    rw [h1, h2, h3, h4]

/-- Witness for C9 at a concrete instance: with four moves that change
nothing (and produce no move signature), no move strictly improves and the
input individual is returned unchanged, with fitness bounded by its own. -/
theorem vns_first_improvement_witness :
    (variable_neighborhood_search configuredWeights
        [⟨⟨0, 0⟩, fun m => if m = 0 then some 7 else none⟩] []
        (fun i => (i, none)) (fun i => (i, none)) (fun i => (i, none))
        (fun i => (i, none))
        ⟨[0], [0], (7 : Nat), (7 : Nat), [⟨⟨0, 0⟩, 0, 0, 7, 7⟩]⟩).fitness ≤
      (⟨[0], [0], (7 : Nat), (7 : Nat), [⟨⟨0, 0⟩, 0, 0, 7, 7⟩]⟩ :
        Individual).fitness ∧
    variable_neighborhood_search configuredWeights
        [⟨⟨0, 0⟩, fun m => if m = 0 then some 7 else none⟩] []
        (fun i => (i, none)) (fun i => (i, none)) (fun i => (i, none))
        (fun i => (i, none))
        ⟨[0], [0], (7 : Nat), (7 : Nat), [⟨⟨0, 0⟩, 0, 0, 7, 7⟩]⟩ =
      ⟨[0], [0], (7 : Nat), (7 : Nat), [⟨⟨0, 0⟩, 0, 0, 7, 7⟩]⟩ :=
  ⟨(vns_first_improvement configuredWeights
      [⟨⟨0, 0⟩, fun m => if m = 0 then some 7 else none⟩] []
      (fun i => (i, none)) (fun i => (i, none)) (fun i => (i, none))
      (fun i => (i, none))
      ⟨[0], [0], (7 : Nat), (7 : Nat), [⟨⟨0, 0⟩, 0, 0, 7, 7⟩]⟩).1,
   (vns_first_improvement configuredWeights
      [⟨⟨0, 0⟩, fun m => if m = 0 then some 7 else none⟩] []
      (fun i => (i, none)) (fun i => (i, none)) (fun i => (i, none))
      (fun i => (i, none))
      ⟨[0], [0], (7 : Nat), (7 : Nat), [⟨⟨0, 0⟩, 0, 0, 7, 7⟩]⟩).2.2.2.2.2
    (by decide) (by decide) (by decide) (by decide)⟩

/-- C8: `run_scheduling` is a total function of its phases' outcomes — it
never propagates a raise.  With zero operations it returns the structured
no-op result; a raise in loading, search or rendering is surfaced as
`errorResult` carrying the message; only the full-success path returns a
rendered schedule; and both failure results carry an error message, an
empty task list and makespan 0 (never a partial schedule). -/
theorem run_scheduling_error_handling (load : Except String (List OpInfo))
    (ga : List OpInfo → Except String Individual)
    (render : Individual → Except String RunResult) :
    (load = Except.ok [] → run_scheduling load ga render = noOpResult) ∧
    (∀ msg, load = Except.error msg →
      run_scheduling load ga render = errorResult msg) ∧
    (∀ ops msg, load = Except.ok ops → ops.isEmpty = false →
      ga ops = Except.error msg → run_scheduling load ga render = errorResult msg) ∧
    (∀ ops best msg, load = Except.ok ops → ops.isEmpty = false →
      ga ops = Except.ok best → render best = Except.error msg →
      run_scheduling load ga render = errorResult msg) ∧
    (∀ ops best r, load = Except.ok ops → ops.isEmpty = false →
      ga ops = Except.ok best → render best = Except.ok r →
      run_scheduling load ga render = r) ∧
    (noOpResult.error = some "No operations to schedule" ∧ noOpResult.tasks = [] ∧
      noOpResult.makespan = 0) ∧
    (∀ msg, (errorResult msg).error = some msg ∧ (errorResult msg).tasks = [] ∧
      (errorResult msg).makespan = 0) := by
  refine ⟨?_, ?_, ?_, ?_, ?_, ⟨rfl, rfl, rfl⟩, fun msg => ⟨rfl, rfl, rfl⟩⟩
  · intro h
    rw [run_scheduling, h]
    rfl
  · intro msg h
    rw [run_scheduling, h]
    rfl
  · intro ops msg hload hne hga
    rw [run_scheduling, hload]
    simp only [bind, Except.bind, hne, Bool.false_eq_true, if_false, hga]
  · intro ops best msg hload hne hga hrender
    rw [run_scheduling, hload]
    simp only [bind, Except.bind, hne, Bool.false_eq_true, if_false, hga, hrender]
  · intro ops best r hload hne hga hrender
    rw [run_scheduling, hload]
    simp only [bind, Except.bind, hne, Bool.false_eq_true, if_false, hga, hrender]

/-- Witness for C8 at concrete oracles: an empty problem yields the no-op
result, and a loader raise yields the error result with the message. -/
theorem run_scheduling_error_handling_witness :
    run_scheduling (Except.ok []) (fun _ => Except.error "ga fails")
        (fun _ => Except.error "render fails") = noOpResult ∧
    run_scheduling (Except.error "bad capability table")
        (fun _ => Except.error "ga fails") (fun _ => Except.error "render fails") =
      errorResult "bad capability table" :=
  ⟨(run_scheduling_error_handling (Except.ok []) (fun _ => Except.error "ga fails")
      (fun _ => Except.error "render fails")).1 rfl,
   (run_scheduling_error_handling (Except.error "bad capability table")
      (fun _ => Except.error "ga fails")
      (fun _ => Except.error "render fails")).2.1 "bad capability table" rfl⟩

/-- C7 (amended): building the problem model never raises — there is no
`ConfigurationError` anywhere in the code.  `load_user_orders` always
returns successfully; an order whose product maps to no known job type is
silently skipped (all-unknown input yields the empty order list); and a
machine declared for an operation but missing from its processing-times
table is silently dropped from the operation's eligible-machine list by
`prepare_problem_data` instead of producing an error. -/
theorem problem_model_loading_never_fails (user ts : String) (raws : List RawOrder) :
    (∃ l, load_user_orders user ts raws = Except.ok l) ∧
    ((∀ r ∈ raws, job_operation_mapping (lowerString r.product) = none) →
      load_user_orders user ts raws = Except.ok []) ∧
    (∀ (declared : List Nat) (pt : Nat → Option Nat) (m : Nat),
      m ∈ eligible_machines declared pt ↔ m ∈ declared ∧ (pt m).isSome) := by
  refine ⟨⟨_, rfl⟩, ?_, ?_⟩
  · intro h
    unfold load_user_orders
    congr 1
    rw [List.filterMap_eq_nil_iff]
    intro r hr
    rw [h r hr]
    rfl
  · intro declared pt m
    simp [eligible_machines, List.mem_filter]

/-- Witness for C7 (amended), at a concrete all-unknown order list. -/
theorem problem_model_loading_never_fails_witness :
    load_user_orders "alice" "t1" [⟨"sofa", 2⟩] = Except.ok [] ∧
    ((0 : Nat) ∈ eligible_machines [0, 1] (fun m => if m = 0 then some 5 else none) ↔
      (0 : Nat) ∈ [0, 1] ∧
        ((fun m => if m = 0 then some 5 else none) 0).isSome) :=
  ⟨(problem_model_loading_never_fails "alice" "t1" [⟨"sofa", 2⟩]).2.1
     (by intro r hr; rcases List.mem_singleton.mp hr with rfl; rfl),
   (problem_model_loading_never_fails "alice" "t1" [⟨"sofa", 2⟩]).2.2 [0, 1]
     (fun m => if m = 0 then some 5 else none) 0⟩

/-- C7 counterexample: an order referencing the unknown job type "sofa"
does not make the problem-model build fail with any error — it is skipped
and loading succeeds with an empty order list; likewise a declared machine
with a missing duration is merely filtered out of the eligible set. -/
theorem configuration_error_counterexample :
    load_user_orders "alice" "t1" [⟨"sofa", 2⟩] = Except.ok [] ∧
    load_user_orders "alice" "t1" [⟨"sofa", 2⟩] ≠
      Except.error "ConfigurationError: unknown job type" ∧
    eligible_machines [0, 1] (fun m => if m = 0 then some 5 else none) = [0] :=
  ⟨rfl, fun h => Except.noConfusion h, rfl⟩

/-- `rangeInt n` lists the integers `0..n-1`, all non-negative. -/
theorem rangeInt_nonneg (n : Nat) (x : Int) (hx : x ∈ rangeInt n) : 0 ≤ x := by
  rcases List.mem_map.mp hx with ⟨i, _, hxi⟩
  rw [← hxi]
  exact Int.ofNat_nonneg i

/-- No element of `rangeInt n` is the placeholder `-1`. -/
theorem rangeInt_ne_neg_one (n : Nat) (x : Int) (hx : x ∈ rangeInt n) : x ≠ -1 := by
  intro h
  have := rangeInt_nonneg n x hx
  omega

/-- `rangeInt n` has no duplicates. -/
theorem rangeInt_nodup (n : Nat) : (rangeInt n).Nodup :=
  (List.nodup_range n).map (fun a b h => Int.ofNat.inj h)

/-- `rangeInt n` has length `n`. -/
theorem rangeInt_length (n : Nat) : (rangeInt n).length = n := by
  rw [rangeInt, List.length_map, List.length_range]

/-- A duplicate-free selection `s` of elements of a duplicate-free list `l`,
followed by the elements of `l` outside `s`, is a permutation of `l` — the
common shape of all three sequence-crossover repairs. -/
theorem sel_append_filter_perm (l s : List Int) (hl : l.Nodup) (hs : s.Nodup)
    (hsub : ∀ x ∈ s, x ∈ l) :
    (s ++ l.filter (fun x => decide (x ∉ s))).Perm l := by
  rw [List.perm_ext_iff_of_nodup ?_ hl]
  · intro a
    rw [List.mem_append, List.mem_filter]
    constructor
    · rintro (ha | ⟨ha, _⟩)
      · exact hsub a ha
      · exact ha
    · intro ha
      by_cases hmem : a ∈ s
      · exact Or.inl hmem
      · exact Or.inr ⟨ha, by simpa using hmem⟩
  · refine List.Nodup.append hs (hl.filter _) ?_
    intro a ha hfa
    rcases List.mem_filter.mp hfa with ⟨_, hdec⟩
    have hnot : a ∉ s := by simpa using hdec
    exact hnot ha

/-- Filling the `-1` holes of a template with exactly as many replacement
elements yields (up to permutation) the template's non-placeholder entries
followed by the replacements. -/
theorem fillHoles_perm (t : List Int) :
    ∀ (r : List Int), r.length = t.countP (fun x => decide (x = -1)) →
      (fillHoles t r).Perm (t.filter (fun x => decide (x ≠ -1)) ++ r) := by
  induction t with
  | nil =>
      intro r hr
      have hr0 : r = [] := List.length_eq_zero.mp (by simpa using hr)
      subst hr0
      exact List.Perm.nil
  | cons c cs ih =>
      intro r hr
      by_cases hc : c = -1
      · subst hc
        rw [List.countP_cons_of_pos _ _ (by simp)] at hr
        cases r with
        | nil => simp at hr
        | cons r0 rs =>
            have hrs : rs.length = cs.countP (fun x => decide (x = -1)) := by
              simpa using hr
            have hfill : fillHoles (-1 :: cs) (r0 :: rs) = r0 :: fillHoles cs rs := by
              simp [fillHoles]
            rw [hfill, List.filter_cons_of_neg (by simp)]
            exact ((ih rs hrs).cons r0).trans List.perm_middle.symm
      · rw [List.countP_cons_of_neg _ _ (by simpa using hc)] at hr
        have hfill : fillHoles (c :: cs) r = c :: fillHoles cs r := by
          simp [fillHoles, hc]
        rw [hfill, List.filter_cons_of_pos (by simpa using hc)]
        exact (ih r hr).cons c

/-- The non-placeholder entries of the order-crossover template are exactly
the copied parent segment. -/
theorem segmentTemplate_filter (p1 : List Int) (s e : Nat)
    (hnn : ∀ x ∈ p1, x ≠ -1) :
    (segmentTemplate p1 s e).filter (fun x => decide (x ≠ -1)) =
      (p1.drop s).take (e - s) := by
  unfold segmentTemplate
  rw [List.filter_append, List.filter_append]
  have h1 : ∀ (k : Nat),
      (List.replicate k (-1 : Int)).filter (fun x => decide (x ≠ -1)) = [] := by
    intro k
    rw [List.filter_eq_nil_iff]
    intro a ha
    rw [List.eq_of_mem_replicate ha]
    simp
  have h2 : ((p1.drop s).take (e - s)).filter (fun x => decide (x ≠ -1)) =
      (p1.drop s).take (e - s) := by
    rw [List.filter_eq_self]
    intro a ha
    have : a ∈ p1 := ((List.take_sublist _ _).trans (List.drop_sublist _ _)).subset ha
    simpa using hnn a this
  rw [h1 s, h1 (p1.length - e), h2]
  simp

/-- The number of placeholders in the order-crossover template. -/
theorem segmentTemplate_countP (p1 : List Int) (s e : Nat)
    (hnn : ∀ x ∈ p1, x ≠ -1) :
    (segmentTemplate p1 s e).countP (fun x => decide (x = -1)) =
      s + (p1.length - e) := by
  unfold segmentTemplate
  rw [List.countP_append, List.countP_append]
  have h1 : ∀ (k : Nat),
      (List.replicate k (-1 : Int)).countP (fun x => decide (x = -1)) = k := by
    intro k
    induction k with
    | zero => rfl
    | succ m ih => rw [List.replicate_succ, List.countP_cons_of_pos _ _ (by simp), ih]
  have h2 : ((p1.drop s).take (e - s)).countP (fun x => decide (x = -1)) = 0 := by
    rw [List.countP_eq_zero]
    intro a ha
    have : a ∈ p1 := ((List.take_sublist _ _).trans (List.drop_sublist _ _)).subset ha
    simpa using hnn a this
  rw [h1 s, h1 (p1.length - e), h2]
  omega

/-- A non-placeholder value lies in the template exactly when it lies in
the copied segment. -/
theorem mem_segmentTemplate (p1 : List Int) (s e : Nat) (x : Int) (hx : x ≠ -1) :
    x ∈ segmentTemplate p1 s e ↔ x ∈ (p1.drop s).take (e - s) := by
  unfold segmentTemplate
  simp [List.mem_append, List.mem_replicate, hx]

/-- One order-crossover child sequence is again a permutation of
`0..n-1`. -/
theorem order_crossover_seq_perm (p1 p2 : List Int) (n s e : Nat)
    (h1 : p1.Perm (rangeInt n)) (h2 : p2.Perm (rangeInt n))
    (hse : s ≤ e) (hen : e ≤ n) :
    (fill_remaining (segmentTemplate p1 s e) p2).Perm (rangeInt n) := by
  have hlen1 : p1.length = n := by rw [h1.length_eq, rangeInt_length]
  have hlen2 : p2.length = n := by rw [h2.length_eq, rangeInt_length]
  have hnn1 : ∀ x ∈ p1, x ≠ -1 := fun x hx => rangeInt_ne_neg_one n x (h1.subset hx)
  have hnn2 : ∀ x ∈ p2, x ≠ -1 := fun x hx => rangeInt_ne_neg_one n x (h2.subset hx)
  have hsegsub : ((p1.drop s).take (e - s)).Sublist p1 :=
    (List.take_sublist _ _).trans (List.drop_sublist _ _)
  have hp1nodup : p1.Nodup := h1.nodup_iff.mpr (rangeInt_nodup n)
  have hp2nodup : p2.Nodup := h2.nodup_iff.mpr (rangeInt_nodup n)
  have hsegnodup : ((p1.drop s).take (e - s)).Nodup := hsegsub.nodup hp1nodup
  have hseglen : ((p1.drop s).take (e - s)).length = e - s := by
    rw [List.length_take, List.length_drop, hlen1]
    omega
  have hsegsubp2 : ∀ x ∈ (p1.drop s).take (e - s), x ∈ p2 :=
    fun x hx => h2.symm.subset (h1.subset (hsegsub.subset hx))
  have hrem : p2.filter (fun x => decide (x ∉ segmentTemplate p1 s e)) =
      p2.filter (fun x => decide (x ∉ (p1.drop s).take (e - s))) := by
    apply List.filter_congr
    intro x hxp2
    rw [decide_eq_decide]
    exact not_congr (mem_segmentTemplate p1 s e x (hnn2 x hxp2))
  have hperm2 :
      ((p1.drop s).take (e - s) ++
        p2.filter (fun x => decide (x ∉ (p1.drop s).take (e - s)))).Perm p2 :=
    sel_append_filter_perm p2 _ hp2nodup hsegnodup hsegsubp2
  have hremlen : (p2.filter (fun x =>
      decide (x ∉ (p1.drop s).take (e - s)))).length = n - (e - s) := by
    have hl := hperm2.length_eq
    rw [List.length_append, hseglen, hlen2] at hl
    omega
  have hcount : (p2.filter (fun x => decide (x ∉ segmentTemplate p1 s e))).length =
      (segmentTemplate p1 s e).countP (fun x => decide (x = -1)) := by
    rw [hrem, hremlen, segmentTemplate_countP p1 s e hnn1, hlen1]
    omega
  rw [fill_remaining]
  refine (fillHoles_perm _ _ hcount).trans ?_
  rw [segmentTemplate_filter p1 s e hnn1, hrem]
  exact hperm2.trans h2

/-- Membership after one `addIfNew` step. -/
theorem mem_addIfNew (acc : List Int) (x y : Int) :
    y ∈ addIfNew acc x ↔ y ∈ acc ∨ y = x := by
  unfold addIfNew
  split
  · rename_i hmem
    constructor
    · exact Or.inl
    · rintro (h | rfl)
      · exact h
      · exact hmem
  · simp [List.mem_append]

/-- Membership in the de-duplicating fold of the uniform sequence
crossover. -/
theorem mem_foldl_addIfNew (xs : List Int) :
    ∀ (acc : List Int) (y : Int),
      y ∈ xs.foldl addIfNew acc ↔ y ∈ acc ∨ y ∈ xs := by
  induction xs with
  | nil => simp
  | cons a t ih =>
      intro acc y
      rw [List.foldl_cons, ih, mem_addIfNew, List.mem_cons]
      tauto

/-- The de-duplicating fold keeps lists duplicate-free. -/
theorem nodup_foldl_addIfNew (xs : List Int) :
    ∀ (acc : List Int), acc.Nodup → (xs.foldl addIfNew acc).Nodup := by
  induction xs with
  | nil => intro acc h; exact h
  | cons a t ih =>
      intro acc h
      rw [List.foldl_cons]
      apply ih
      unfold addIfNew
      split
      · exact h
      · rename_i hmem
        refine List.Nodup.append h (List.nodup_singleton a) ?_
        intro x hx hxa
        rcases List.mem_singleton.mp hxa with rfl
        exact hmem hx

/-- Every uniform-crossover pick is an element of one of the parents. -/
theorem mem_uniformPicks (a b : List Int) (coins : Nat → Bool)
    (hlen : b.length = a.length) (y : Int) (hy : y ∈ uniformPicks a b coins) :
    y ∈ a ∨ y ∈ b := by
  unfold uniformPicks at hy
  rcases List.mem_map.mp hy with ⟨i, hi, hyi⟩
  have hia : i < a.length := List.mem_range.mp hi
  by_cases hc : coins i
  · left
    rw [if_pos hc] at hyi
    rw [← hyi, List.getD_eq_getElem a (-1) hia]
    exact List.getElem_mem hia
  · right
    have hib : i < b.length := by omega
    rw [if_neg hc] at hyi
    rw [← hyi, List.getD_eq_getElem b (-1) hib]
    exact List.getElem_mem hib

/-- One uniform-crossover child sequence is again a permutation of
`0..n-1`. -/
theorem uniform_child_seq_perm (a b : List Int) (coins : Nat → Bool) (n : Nat)
    (h1 : a.Perm (rangeInt n)) (h2 : b.Perm (rangeInt n)) :
    (uniformChildSeq a b coins).Perm (rangeInt n) := by
  have hlen : b.length = a.length := by rw [h2.length_eq, h1.length_eq]
  have hacc_nodup : ((uniformPicks a b coins).foldl addIfNew []).Nodup :=
    nodup_foldl_addIfNew _ [] List.nodup_nil
  have hacc_sub : ∀ x ∈ (uniformPicks a b coins).foldl addIfNew [], x ∈ rangeInt n := by
    intro x hx
    rcases (mem_foldl_addIfNew _ [] x).mp hx with h | h
    · cases h
    · rcases mem_uniformPicks a b coins hlen x h with h | h
      · exact h1.subset h
      · exact h2.subset h
  have hn : a.length = n := by rw [h1.length_eq, rangeInt_length]
  unfold uniformChildSeq missingOps
  rw [hn]
  exact sel_append_filter_perm (rangeInt n) _ (rangeInt_nodup n) hacc_nodup hacc_sub

/-- Placeholder and non-placeholder entry counts add up to the length. -/
theorem countP_neg_one_add (l : List Int) :
    l.countP (fun x => decide (x = -1)) + l.countP (fun x => decide (x ≠ -1)) =
      l.length := by
  induction l with
  | nil => rfl
  | cons c cs ih =>
      by_cases hc : c = -1
      · rw [List.countP_cons_of_pos _ _ (by simpa using hc),
          List.countP_cons_of_neg _ _ (by simpa using hc), List.length_cons]
        omega
      · rw [List.countP_cons_of_neg _ _ (by simpa using hc),
          List.countP_cons_of_pos _ _ (by simpa using hc), List.length_cons]
        omega

/-- The non-placeholder entries of the position-based template are the
parent's values at the selected positions, in index order. -/
theorem positionTemplate_filter_eq (p : List Int) (positions : List Nat)
    (hnn : ∀ x ∈ p, x ≠ -1) :
    (positionTemplate p positions).filter (fun x => decide (x ≠ -1)) =
      ((List.range p.length).filter (fun i => decide (i ∈ positions))).map
        (fun i => p.getD i (-1)) := by
  unfold positionTemplate
  rw [List.filter_map]
  have hfil : (List.range p.length).filter
      ((fun x => decide (x ≠ -1)) ∘ fun i => if i ∈ positions then p.getD i (-1) else -1) =
      (List.range p.length).filter (fun i => decide (i ∈ positions)) := by
    apply List.filter_congr
    intro i hi
    have hlt : i < p.length := List.mem_range.mp hi
    by_cases hp : i ∈ positions
    · simp only [Function.comp, hp, if_true, decide_eq_true_eq, eq_iff_iff,
        iff_true]
      rw [List.getD_eq_getElem p (-1) hlt]
      simpa using hnn _ (List.getElem_mem hlt)
    · simp [Function.comp, hp]
  rw [hfil]
  apply List.map_congr_left
  intro i hi
  rcases List.mem_filter.mp hi with ⟨_, hdec⟩
  have hp : i ∈ positions := by simpa using hdec
  simp [hp]

/-- The selected entries of the position-based template are duplicate-free
when the parent is. -/
theorem positionTemplate_filter_nodup (p : List Int) (positions : List Nat)
    (hnn : ∀ x ∈ p, x ≠ -1) (hnodup : p.Nodup) :
    ((positionTemplate p positions).filter (fun x => decide (x ≠ -1))).Nodup := by
  rw [positionTemplate_filter_eq p positions hnn]
  refine List.Nodup.map_on ?_ ((List.nodup_range _).filter _)
  intro i hi j hj hfij
  have hlt_i : i < p.length := List.mem_range.mp (List.mem_filter.mp hi).1
  have hlt_j : j < p.length := List.mem_range.mp (List.mem_filter.mp hj).1
  rw [List.getD_eq_getElem p (-1) hlt_i, List.getD_eq_getElem p (-1) hlt_j] at hfij
  exact hnodup.getElem_inj_iff.mp hfij

/-- The selected template entries all come from the parent. -/
theorem positionTemplate_filter_subset (p : List Int) (positions : List Nat)
    (hnn : ∀ x ∈ p, x ≠ -1) :
    ∀ x ∈ (positionTemplate p positions).filter (fun x => decide (x ≠ -1)),
      x ∈ p := by
  intro x hx
  rw [positionTemplate_filter_eq p positions hnn] at hx
  rcases List.mem_map.mp hx with ⟨i, hi, hxi⟩
  have hlt : i < p.length := List.mem_range.mp (List.mem_filter.mp hi).1
  rw [← hxi, List.getD_eq_getElem p (-1) hlt]
  exact List.getElem_mem hlt

/-- The selected template entries coincide (as a set) with the
`selected_ops` set the code filters against. -/
theorem mem_template_iff_selected (p : List Int) (positions : List Nat)
    (hnn : ∀ x ∈ p, x ≠ -1) (hpos : ∀ q ∈ positions, q < p.length) (x : Int) :
    x ∈ (positionTemplate p positions).filter (fun x => decide (x ≠ -1)) ↔
      x ∈ selectedOps p positions := by
  rw [positionTemplate_filter_eq p positions hnn]
  unfold selectedOps
  constructor
  · intro hx
    rcases List.mem_map.mp hx with ⟨i, hi, hxi⟩
    rcases List.mem_filter.mp hi with ⟨_, hdec⟩
    have hp : i ∈ positions := by simpa using hdec
    exact List.mem_map.mpr ⟨i, hp, hxi⟩
  · intro hx
    rcases List.mem_map.mp hx with ⟨q, hq, hxq⟩
    refine List.mem_map.mpr ⟨q, ?_, hxq⟩
    exact List.mem_filter.mpr
      ⟨List.mem_range.mpr (hpos q hq), by simpa using hq⟩

/-- One position-based-crossover child sequence is again a permutation of
`0..n-1`. -/
theorem pbx_child_seq_perm (p1 p2 : List Int) (positions : List Nat) (n : Nat)
    (h1 : p1.Perm (rangeInt n)) (h2 : p2.Perm (rangeInt n))
    (hpos : ∀ q ∈ positions, q < n) :
    (fill_remaining_pbx (positionTemplate p1 positions) p2
      (selectedOps p1 positions)).Perm (rangeInt n) := by
  have hlen1 : p1.length = n := by rw [h1.length_eq, rangeInt_length]
  have hlen2 : p2.length = n := by rw [h2.length_eq, rangeInt_length]
  have hnn1 : ∀ x ∈ p1, x ≠ -1 := fun x hx => rangeInt_ne_neg_one n x (h1.subset hx)
  have hnn2 : ∀ x ∈ p2, x ≠ -1 := fun x hx => rangeInt_ne_neg_one n x (h2.subset hx)
  have hp1nodup : p1.Nodup := h1.nodup_iff.mpr (rangeInt_nodup n)
  have hp2nodup : p2.Nodup := h2.nodup_iff.mpr (rangeInt_nodup n)
  have hposlen : ∀ q ∈ positions, q < p1.length := by
    intro q hq; rw [hlen1]; exact hpos q hq
  have hTnodup := positionTemplate_filter_nodup p1 positions hnn1 hp1nodup
  have hTsubp2 : ∀ x ∈ (positionTemplate p1 positions).filter
      (fun x => decide (x ≠ -1)), x ∈ p2 := fun x hx =>
    h2.symm.subset (h1.subset (positionTemplate_filter_subset p1 positions hnn1 x hx))
  have hrem : p2.filter (fun x => decide (x ∉ selectedOps p1 positions)) =
      p2.filter (fun x => decide (x ∉ (positionTemplate p1 positions).filter
        (fun x => decide (x ≠ -1)))) := by
    apply List.filter_congr
    intro x _
    rw [decide_eq_decide]
    exact not_congr (mem_template_iff_selected p1 positions hnn1 hposlen x).symm
  have hperm2 : ((positionTemplate p1 positions).filter (fun x => decide (x ≠ -1)) ++
      p2.filter (fun x => decide (x ∉ (positionTemplate p1 positions).filter
        (fun x => decide (x ≠ -1))))).Perm p2 :=
    sel_append_filter_perm p2 _ hp2nodup hTnodup hTsubp2
  have hlenTemplate : (positionTemplate p1 positions).length = n := by
    unfold positionTemplate
    rw [List.length_map, List.length_range, hlen1]
  have hcount : (p2.filter (fun x =>
      decide (x ∉ selectedOps p1 positions))).length =
      (positionTemplate p1 positions).countP (fun x => decide (x = -1)) := by
    have hsplit := countP_neg_one_add (positionTemplate p1 positions)
    rw [hlenTemplate] at hsplit
    have hl := hperm2.length_eq
    rw [List.length_append, hlen2] at hl
    rw [hrem]
    have hTfl : ((positionTemplate p1 positions).filter
        (fun x => decide (x ≠ -1))).length =
        (positionTemplate p1 positions).countP (fun x => decide (x ≠ -1)) :=
      (List.countP_eq_length_filter _ _).symm
    omega
  rw [fill_remaining_pbx]
  refine (fillHoles_perm _ _ hcount).trans ?_
  rw [hrem]
  exact hperm2.trans h2

/-- The in-place tuple swap of two valid positions permutes the list. -/
theorem swapPositions_perm (l : List Int) (i j : Nat) (hi : i < l.length)
    (hj : j < l.length) : (swapPositions l i j).Perm l := by
  rw [List.perm_iff_count]
  intro a
  unfold swapPositions
  have hj' : j < (l.set i (l.getD j 0)).length := by
    rw [List.length_set]; exact hj
  rw [List.count_set _ _ _ _ hj', List.count_set _ _ _ _ hi]
  have hgetj : (l.set i (l.getD j 0))[j] = l[j] := by
    rw [List.getElem_set]
    by_cases hij : i = j
    · subst hij
      rw [if_pos rfl, List.getD_eq_getElem l 0 hj]
    · rw [if_neg hij]
  rw [hgetj, List.getD_eq_getElem l 0 hi, List.getD_eq_getElem l 0 hj]
  simp only [beq_iff_eq]
  have hboundi : l[i] = a → 1 ≤ l.count a := by
    intro h
    rw [← h]
    exact List.one_le_count_iff.mpr (List.getElem_mem hi)
  have hboundj : l[j] = a → 1 ≤ l.count a := by
    intro h
    rw [← h]
    exact List.one_le_count_iff.mpr (List.getElem_mem hj)
  by_cases hia : l[i] = a <;> by_cases hja : l[j] = a <;>
    simp only [hia, hja, if_true, if_false, if_pos, if_neg] <;>
    simp [hia, hja] <;> omega

/-- Removing position `i` and re-prepending its element permutes the
list. -/
theorem cons_eraseIdx_perm (l : List Int) :
    ∀ (i : Nat), i < l.length → (l.getD i 0 :: l.eraseIdx i).Perm l := by
  induction l with
  | nil => intro i hi; simp at hi
  | cons a t ih =>
      intro i hi
      cases i with
      | zero => exact List.Perm.refl _
      | succ m =>
          have hm : m < t.length := by simpa using hi
          have herase : (a :: t).eraseIdx (m + 1) = a :: t.eraseIdx m := rfl
          rw [List.getD_cons_succ, herase]
          exact (List.Perm.swap a _ _).trans ((ih m hm).cons a)

/-- Inserting an element at a valid index is a permutation of prepending
it. -/
theorem insertIdx_perm_cons (x : Int) :
    ∀ (r : List Int) (j : Nat), j ≤ r.length → (r.insertIdx j x).Perm (x :: r) := by
  intro r
  induction r with
  | nil =>
      intro j hj
      cases j with
      | zero => exact List.Perm.refl _
      | succ m => simp at hj
  | cons a t ih =>
      intro j hj
      cases j with
      | zero => exact List.Perm.refl _
      | succ m =>
          have hm : m ≤ t.length := by simpa using hj
          rw [List.insertIdx_succ_cons]
          exact ((ih m hm).cons a).trans (List.Perm.swap x a t)

/-- Each of the three sequence-mutation strategies, with indices in the
ranges Python's random draws produce, permutes the sequence. -/
theorem applySeqMutation_perm (l : List Int) (strat : MutStrategy)
    (hwf : StratWF l.length strat) :
    (applySeqMutation l strat).Perm l := by
  cases strat with
  | swapAt i j =>
      exact swapPositions_perm l i j hwf.1 hwf.2
  | insertAt i j =>
      rcases hwf with ⟨hi, hj⟩
      have hlen : (l.eraseIdx i).length = l.length - 1 := by
        rw [List.length_eraseIdx]
        simp [hi]
      have hj' : j ≤ (l.eraseIdx i).length := by omega
      exact (insertIdx_perm_cons _ _ j hj').trans (cons_eraseIdx_perm l i hi)
  | reverseAt s e =>
      have hse : s ≤ e := hwf
      show (l.take s ++ ((l.drop s).take (e + 1 - s)).reverse ++
        l.drop (e + 1)).Perm l
      have hsplit : l = l.take s ++ ((l.drop s).take (e + 1 - s) ++
          l.drop (e + 1)) := by
        have h1 : (l.drop s).drop (e + 1 - s) = l.drop (e + 1) := by
          rw [List.drop_drop]
          congr 1
          omega
        rw [← h1, List.take_append_drop, List.take_append_drop]
      have hstep : (l.take s ++ ((l.drop s).take (e + 1 - s)).reverse ++
          l.drop (e + 1)).Perm
          (l.take s ++ ((l.drop s).take (e + 1 - s) ++ l.drop (e + 1))) := by
        rw [List.append_assoc]
        exact ((List.reverse_perm _).append_right _).append_left _
      exact hstep.trans (by rw [← hsplit])

/-- C4: for parents whose `operation_sequence` is a permutation of
`0..n-1`, both children of `order_crossover`, `uniform_crossover` and
`position_based_crossover` again carry a permutation of `0..n-1` (no
duplicates or omissions), and `mutate_individual` leaves a permutation a
permutation, for every outcome of the random draws (cut points `s ≤ e ≤ n`,
coin streams, sampled positions `< n`, machine picks, and a sequence-mutation
strategy with indices in the ranges the code draws them from). -/
theorem crossover_mutation_preserve_permutation (n : Nat) (p1 p2 : Individual)
    (h1 : p1.operation_sequence.Perm (rangeInt n))
    (h2 : p2.operation_sequence.Perm (rangeInt n))
    (s e : Nat) (hse : s ≤ e) (hen : e ≤ n) (coins coinsM coinsS : Nat → Bool)
    (positions : List Nat) (hpos : ∀ q ∈ positions, q < n)
    (mp : Nat → Option Nat) (doSeqMut : Bool) (strat : MutStrategy)
    (hstrat : StratWF n strat) :
    ((order_crossover p1 p2 s e coins).1.operation_sequence.Perm (rangeInt n) ∧
      (order_crossover p1 p2 s e coins).2.operation_sequence.Perm (rangeInt n)) ∧
    ((uniform_crossover p1 p2 coinsM coinsS).1.operation_sequence.Perm (rangeInt n) ∧
      (uniform_crossover p1 p2 coinsM coinsS).2.operation_sequence.Perm (rangeInt n)) ∧
    ((position_based_crossover p1 p2 positions).1.operation_sequence.Perm
        (rangeInt n) ∧
      (position_based_crossover p1 p2 positions).2.operation_sequence.Perm
        (rangeInt n)) ∧
    (mutate_individual mp doSeqMut strat p1).operation_sequence.Perm (rangeInt n) := by
  have hlen1 : p1.operation_sequence.length = n := by
    rw [h1.length_eq, rangeInt_length]
  refine ⟨⟨?_, ?_⟩, ⟨?_, ?_⟩, ⟨?_, ?_⟩, ?_⟩
  · exact order_crossover_seq_perm _ _ n s e h1 h2 hse hen
  · exact order_crossover_seq_perm _ _ n s e h2 h1 hse hen
  · exact uniform_child_seq_perm _ _ coinsS n h1 h2
  · exact uniform_child_seq_perm _ _ coinsS n h2 h1
  · exact pbx_child_seq_perm _ _ positions n h1 h2 hpos
  · exact pbx_child_seq_perm _ _ positions n h2 h1 hpos
  · show (if doSeqMut then applySeqMutation p1.operation_sequence strat
      else p1.operation_sequence).Perm (rangeInt n)
    split
    · exact (applySeqMutation_perm _ strat (hlen1.symm ▸ hstrat)).trans h1
    · exact h1

/-- Witness for C4 at a concrete instance: parents `[0, 1]` and `[1, 0]`,
cut `[0, 1)`, all-true coins, sampled position 0, a machine-pick oracle
keeping every machine, and a swap mutation of positions 0 and 1. -/
theorem crossover_mutation_preserve_permutation_witness :
    ((order_crossover ⟨[0, 1], [0, 1], ⊤, ⊤, []⟩ ⟨[1, 0], [1, 0], ⊤, ⊤, []⟩ 0 1
        (fun _ => true)).1.operation_sequence.Perm (rangeInt 2) ∧
      (order_crossover ⟨[0, 1], [0, 1], ⊤, ⊤, []⟩ ⟨[1, 0], [1, 0], ⊤, ⊤, []⟩ 0 1
        (fun _ => true)).2.operation_sequence.Perm (rangeInt 2)) ∧
    ((uniform_crossover ⟨[0, 1], [0, 1], ⊤, ⊤, []⟩ ⟨[1, 0], [1, 0], ⊤, ⊤, []⟩
        (fun _ => true) (fun _ => true)).1.operation_sequence.Perm (rangeInt 2) ∧
      (uniform_crossover ⟨[0, 1], [0, 1], ⊤, ⊤, []⟩ ⟨[1, 0], [1, 0], ⊤, ⊤, []⟩
        (fun _ => true) (fun _ => true)).2.operation_sequence.Perm (rangeInt 2)) ∧
    ((position_based_crossover ⟨[0, 1], [0, 1], ⊤, ⊤, []⟩
        ⟨[1, 0], [1, 0], ⊤, ⊤, []⟩ [0]).1.operation_sequence.Perm (rangeInt 2) ∧
      (position_based_crossover ⟨[0, 1], [0, 1], ⊤, ⊤, []⟩
        ⟨[1, 0], [1, 0], ⊤, ⊤, []⟩ [0]).2.operation_sequence.Perm (rangeInt 2)) ∧
    (mutate_individual (fun _ => none) true (MutStrategy.swapAt 0 1)
      ⟨[0, 1], [0, 1], ⊤, ⊤, []⟩).operation_sequence.Perm (rangeInt 2) :=
  crossover_mutation_preserve_permutation 2 ⟨[0, 1], [0, 1], ⊤, ⊤, []⟩
    ⟨[1, 0], [1, 0], ⊤, ⊤, []⟩ (by decide) (by decide) 0 1 (by decide) (by decide)
    (fun _ => true) (fun _ => true) (fun _ => true) [0] (by decide)
    (fun _ => none) true (MutStrategy.swapAt 0 1) ⟨by decide, by decide⟩

/-- The fitness comparison is transitive. -/
theorem fitLE_trans : ∀ (a b c : Individual), fitLE a b → fitLE b c → fitLE a c := by
  intro a b c hab hbc
  simp only [fitLE, decide_eq_true_eq] at *
  exact le_trans hab hbc

/-- The fitness comparison is total. -/
theorem fitLE_total : ∀ (a b : Individual), fitLE a b || fitLE b a := by
  intro a b
  simp only [fitLE, Bool.or_eq_true, decide_eq_true_eq]
  exact le_total _ _

/-- In a population sorted ascending by fitness, the head has minimal
fitness. -/
theorem head_fitness_le_of_sorted (pop : List Individual)
    (hs : pop.Pairwise fun a b => fitLE a b) (x : Individual) (hx : x ∈ pop) :
    (pop.getD 0 dummyInd).fitness ≤ x.fitness := by
  cases pop with
  | nil => cases hx
  | cons a t =>
      rcases List.mem_cons.mp hx with rfl | hx
      · exact le_refl _
      · have := (List.pairwise_cons.mp hs).1 x hx
        simpa [fitLE, decide_eq_true_eq] using this

/-- The head of a nonempty list is a member. -/
theorem getD_zero_mem (l : List Individual) (h : l ≠ []) :
    l.getD 0 dummyInd ∈ l := by
  cases l with
  | nil => exact absurd rfl h
  | cons a t => exact List.mem_cons_self a t

/-- Taking at least one element keeps the head. -/
theorem getD_zero_take (l : List Individual) (k : Nat) (hk : 1 ≤ k) :
    (l.take k).getD 0 dummyInd = l.getD 0 dummyInd := by
  cases l with
  | nil => simp
  | cons a t =>
      cases k with
      | zero => omega
      | succ n => simp

/-- Truncating an appended nonempty list at one or more elements keeps the
head. -/
theorem getD_zero_append_take (l l' : List Individual) (k : Nat) (hk : 1 ≤ k)
    (hl : l ≠ []) : ((l ++ l').take k).getD 0 dummyInd = l.getD 0 dummyInd := by
  cases l with
  | nil => exact absurd rfl hl
  | cons a t =>
      cases k with
      | zero => omega
      | succ n => simp

/-- The elite-refinement fold preserves the population length. -/
theorem refineFold_length (vns : Individual → Individual) (elite : List Individual)
    (idxs : List Nat) (np : List Individual) :
    (idxs.foldl (fun np i =>
        let improved := vns (elite.getD i dummyInd)
        if improved.fitness < (elite.getD i dummyInd).fitness then np.set i improved
        else np) np).length = np.length := by
  induction idxs generalizing np with
  | nil => rfl
  | cons a t ih =>
      rw [List.foldl_cons, ih]
      dsimp only
      split
      · exact List.length_set np a _
      · rfl

/-- `vnsRefine` preserves the population length. -/
theorem vnsRefine_length (vns : Individual → Individual) (elite np : List Individual) :
    (vnsRefine vns elite np).length = np.length :=
  refineFold_length vns elite _ np

/-- The head of `vnsRefine vns elite elite` has fitness at most the head of
`elite` (the top elite is only replaced by a strict improvement). -/
theorem vnsRefine_head_fitness (vns : Individual → Individual) :
    ∀ (elite : List Individual),
      ((vnsRefine vns elite elite).getD 0 dummyInd).fitness ≤
        (elite.getD 0 dummyInd).fitness
  | [] => le_refl _
  | [e] => by
      unfold vnsRefine
      rw [show List.range (min 2 ([e] : List Individual).length) = [0] from rfl]
      simp only [List.foldl_cons, List.foldl_nil, List.getD_cons_zero]
      split
      · rename_i h
        simp only [List.set_cons_zero, List.getD_cons_zero]
        exact le_of_lt h
      · exact le_refl _
  | e1 :: e2 :: rest => by
      unfold vnsRefine
      rw [show min 2 (e1 :: e2 :: rest).length = 2 from Nat.min_eq_left (by simp),
        show List.range 2 = [0, 1] from rfl]
      simp only [List.foldl_cons, List.foldl_nil, List.getD_cons_zero,
        List.getD_cons_succ]
      split
      · split
        · rename_i h0
          simp only [List.set_cons_zero, List.set_cons_succ, List.getD_cons_zero]
          exact le_of_lt h0
        · simp only [List.set_cons_succ, List.getD_cons_zero]
          exact le_refl _
      · split
        · rename_i h0
          simp only [List.set_cons_zero, List.getD_cons_zero]
          exact le_of_lt h0
        · exact le_refl _

/-- A generation step produces a population sorted ascending by fitness. -/
theorem genStep_sorted (popSize : Nat) (g : GenOracle) (pop : List Individual) :
    (genStep popSize g pop).Pairwise fun a b => fitLE a b :=
  List.sorted_mergeSort fitLE_trans fitLE_total _

/-- A generation step never empties a nonempty population (one elite always
survives the truncation). -/
theorem genStep_ne_nil (popSize : Nat) (g : GenOracle) (pop : List Individual)
    (hpop : pop ≠ []) (hps : 1 ≤ popSize) : genStep popSize g pop ≠ [] := by
  unfold genStep
  intro hcontra
  have hlen := congrArg List.length hcontra
  rw [(List.mergeSort_perm _ fitLE).length_eq] at hlen
  have hel : 1 ≤ (pop.take (max 1 g.eliteCount)).length := by
    rw [List.length_take]
    have : 1 ≤ pop.length := List.length_pos.mpr hpop
    omega
  have hrl : 1 ≤ (if g.doVNS then
      vnsRefine g.vns (pop.take (max 1 g.eliteCount)) (pop.take (max 1 g.eliteCount))
    else pop.take (max 1 g.eliteCount)).length := by
    split
    · rw [vnsRefine_length]; exact hel
    · exact hel
  rw [List.length_take, List.length_append, List.length_nil] at hlen
  omega

/-- A generation step never increases the best fitness. -/
theorem genStep_bestFit (popSize : Nat) (g : GenOracle) (pop : List Individual)
    (hpop : pop ≠ []) (hps : 1 ≤ popSize) :
    bestFit (genStep popSize g pop) ≤ bestFit pop := by
  set elite := pop.take (max 1 g.eliteCount) with helite
  set refined := if g.doVNS then vnsRefine g.vns elite elite else elite with hrefined
  have heliteNe : elite ≠ [] := by
    rw [helite]
    intro h
    have := congrArg List.length h
    rw [List.length_take, List.length_nil] at this
    have : 1 ≤ pop.length := List.length_pos.mpr hpop
    omega
  have hrefNe : refined ≠ [] := by
    rw [hrefined]
    split
    · intro h
      have := congrArg List.length h
      rw [vnsRefine_length, List.length_nil] at this
      exact heliteNe (List.length_eq_zero.mp this)
    · exact heliteNe
  have hrefHead : (refined.getD 0 dummyInd).fitness ≤
      (elite.getD 0 dummyInd).fitness := by
    rw [hrefined]
    split
    · exact vnsRefine_head_fitness g.vns elite
    · exact le_refl _
  have heliteHead : elite.getD 0 dummyInd = pop.getD 0 dummyInd := by
    rw [helite]
    exact getD_zero_take pop _ (le_max_left 1 g.eliteCount)
  have hmem : refined.getD 0 dummyInd ∈ (refined ++ g.offspring).take popSize := by
    have : ((refined ++ g.offspring).take popSize).getD 0 dummyInd =
        refined.getD 0 dummyInd := getD_zero_append_take refined g.offspring popSize hps hrefNe
    rw [← this]
    apply getD_zero_mem
    intro h
    have := congrArg List.length h
    rw [List.length_take, List.length_append, List.length_nil] at this
    have h1 : 1 ≤ refined.length := Nat.one_le_iff_ne_zero.mpr
      (fun hz => hrefNe (List.length_eq_zero.mp hz))
    omega
  have hmem2 : refined.getD 0 dummyInd ∈ genStep popSize g pop := by
    unfold genStep
    exact ((List.mergeSort_perm _ fitLE).mem_iff).mpr hmem
  calc bestFit (genStep popSize g pop)
      ≤ (refined.getD 0 dummyInd).fitness :=
        head_fitness_le_of_sorted _ (genStep_sorted popSize g pop) _ hmem2
    _ ≤ (elite.getD 0 dummyInd).fitness := hrefHead
    _ = bestFit pop := by rw [heliteHead]; rfl

/-- The generational loop keeps the population nonempty and sorted. -/
theorem loop_invariant (popSize : Nat) (gens : List GenOracle)
    (pop0 : List Individual) (hps : 1 ≤ popSize) (h0 : pop0 ≠ [])
    (hs : pop0.Pairwise fun a b => fitLE a b) :
    genetic_algorithm_loop popSize gens pop0 ≠ [] ∧
      (genetic_algorithm_loop popSize gens pop0).Pairwise fun a b => fitLE a b := by
  induction gens generalizing pop0 with
  | nil => exact ⟨h0, hs⟩
  | cons g t ih =>
      have hstep := genStep_ne_nil popSize g pop0 h0 hps
      exact ih (genStep popSize g pop0) hstep (genStep_sorted popSize g pop0)

/-- C5: across the generational loop the best fitness present in the
(sorted) population never increases from one generation to the next, and
the individual `genetic_algorithm` returns at termination is a member of
the final population with minimal fitness. -/
theorem ga_monotone_and_returns_min (popSize : Nat) (gens : List GenOracle)
    (pop0 : List Individual) (hps : 1 ≤ popSize) (h0 : pop0 ≠ [])
    (hs : pop0.Pairwise fun a b => fitLE a b) :
    (∀ k : Nat, bestFit (genetic_algorithm_loop popSize (gens.take (k + 1)) pop0) ≤
      bestFit (genetic_algorithm_loop popSize (gens.take k) pop0)) ∧
    genetic_algorithm_result popSize gens pop0 ∈
      genetic_algorithm_loop popSize gens pop0 ∧
    ∀ x ∈ genetic_algorithm_loop popSize gens pop0,
      (genetic_algorithm_result popSize gens pop0).fitness ≤ x.fitness := by
  refine ⟨?_, ?_, ?_⟩
  · intro k
    rw [List.take_succ]
    unfold genetic_algorithm_loop
    rw [List.foldl_append]
    cases hk : gens[k]? with
    | none => exact le_refl _
    | some g =>
        have hinv := loop_invariant popSize (gens.take k) pop0 hps h0 hs
        exact genStep_bestFit popSize g _ hinv.1 hps
  · exact getD_zero_mem _ (loop_invariant popSize gens pop0 hps h0 hs).1
  · intro x hx
    exact head_fitness_le_of_sorted _ (loop_invariant popSize gens pop0 hps h0 hs).2
      x hx

/-- Witness for C5 at a concrete instance: a one-individual population and
one generation whose oracle supplies no offspring and an identity VNS. -/
theorem ga_monotone_and_returns_min_witness :
    bestFit (genetic_algorithm_loop 1
        (([⟨1, true, id, []⟩] : List GenOracle).take (0 + 1))
        [⟨[0], [0], (7 : Nat), (7 : Nat), []⟩]) ≤
      bestFit (genetic_algorithm_loop 1
        (([⟨1, true, id, []⟩] : List GenOracle).take 0)
        [⟨[0], [0], (7 : Nat), (7 : Nat), []⟩]) ∧
    genetic_algorithm_result 1 [⟨1, true, id, []⟩]
        [⟨[0], [0], (7 : Nat), (7 : Nat), []⟩] ∈
      genetic_algorithm_loop 1 [⟨1, true, id, []⟩]
        [⟨[0], [0], (7 : Nat), (7 : Nat), []⟩] ∧
    (genetic_algorithm_result 1 [⟨1, true, id, []⟩]
        [⟨[0], [0], (7 : Nat), (7 : Nat), []⟩]).fitness ≤
      (genetic_algorithm_result 1 [⟨1, true, id, []⟩]
        [⟨[0], [0], (7 : Nat), (7 : Nat), []⟩]).fitness :=
  ⟨(ga_monotone_and_returns_min 1 [⟨1, true, id, []⟩]
      [⟨[0], [0], (7 : Nat), (7 : Nat), []⟩] (by decide)
      (by intro h; cases h) (List.pairwise_singleton _ _)).1 0,
   (ga_monotone_and_returns_min 1 [⟨1, true, id, []⟩]
      [⟨[0], [0], (7 : Nat), (7 : Nat), []⟩] (by decide)
      (by intro h; cases h) (List.pairwise_singleton _ _)).2.1,
   (ga_monotone_and_returns_min 1 [⟨1, true, id, []⟩]
      [⟨[0], [0], (7 : Nat), (7 : Nat), []⟩] (by decide)
      (by intro h; cases h) (List.pairwise_singleton _ _)).2.2 _
     (ga_monotone_and_returns_min 1 [⟨1, true, id, []⟩]
      [⟨[0], [0], (7 : Nat), (7 : Nat), []⟩] (by decide)
      (by intro h; cases h) (List.pairwise_singleton _ _)).2.1⟩

/-- Witness for C10: a single operation assigned to a machine with no
declared duration is scheduled from 0 to 10 and the makespan is 10. -/
theorem default_duration_for_missing_machine_witness :
    ((decodeSeq [⟨⟨0, 0⟩, fun _ => none⟩] [0] [0]).sched.getD 0
        dummySched).processing_time = 10 ∧
    ((decodeSeq [⟨⟨0, 0⟩, fun _ => none⟩] [0] [0]).sched.getD 0
        dummySched).end_time =
      ((decodeSeq [⟨⟨0, 0⟩, fun _ => none⟩] [0] [0]).sched.getD 0
        dummySched).start_time + 10 ∧
    ((decodeSeq [⟨⟨0, 0⟩, fun _ => none⟩] [0] [0]).sched.getD 0
        dummySched).end_time ≤
      makespanOf (decodeSeq [⟨⟨0, 0⟩, fun _ => none⟩] [0] [0]).sched :=
  default_duration_for_missing_machine [⟨⟨0, 0⟩, fun _ => none⟩] [0] [] [] 0 rfl

end FJSP
